import Mathlib

/-!
Shallow embedding of `src/powerengine/__init__.py`.

Python blocks are records holding an open state dictionary (the keys the
engine ever reads are `signal`, `facing`, `delay`, `timer`), a coordinate
triple, a `last_updated` tick marker and a globally unique identity token
(`uuid.uuid4`, modelled by a fresh-name supply threaded through the
engine).  The engine owns an insertion-ordered map from coordinates to
blocks (Python dicts preserve insertion order, so the map is an
association list), a tick counter and the transient pending-update set
`update_buffer`.  Exceptions are modelled by an `Option PyErr` component:
an update that raises returns the state mutated so far plus the error,
matching Python's in-place mutation followed by propagation.
-/

namespace PowerEngine

abbrev Coords := Int × Int × Int

inductive Dir where
  | north
  | south
  | east
  | west
deriving DecidableEq

/-- The opposite-direction table used by `Wire.update` and `Delayer.update`. -/
def Dir.opposite : Dir → Dir
  | Dir.north => Dir.south
  | Dir.south => Dir.north
  | Dir.east => Dir.west
  | Dir.west => Dir.east

/-- Unit offsets of `Utils.__get_surrounding_block`: north/south move the
first axis by ±1, west/east move the third axis by ±1. -/
def Dir.offset : Dir → Coords → Coords
  | Dir.north, (x, y, z) => (x + 1, y, z)
  | Dir.south, (x, y, z) => (x - 1, y, z)
  | Dir.west, (x, y, z) => (x, y, z + 1)
  | Dir.east, (x, y, z) => (x, y, z - 1)

def allDirs : List Dir := [Dir.north, Dir.south, Dir.east, Dir.west]

/-- A `facing` entry is either a single direction string or a list of
direction strings. -/
inductive Facing where
  | dir (d : Dir)
  | dirs (l : List Dir)
deriving DecidableEq

/-- Python truthiness of `state.get('facing')`: absent and the empty list
are falsy, a direction string and a nonempty list are truthy. -/
def truthyFacing : Option Facing → Bool
  | none => false
  | some (Facing.dir _) => true
  | some (Facing.dirs l) => !l.isEmpty

/-- Python truthiness of an optional integer entry such as
`state.get('signal')` or `state.get('timer')`. -/
def truthyInt : Option Int → Bool
  | none => false
  | some v => v != 0

/-- The block-state dictionary, restricted to the keys the engine reads. -/
structure StateDict where
  signal : Option Int := none
  facing : Option Facing := none
  delay : Option Int := none
  timer : Option Int := none
deriving DecidableEq

/-- The concrete block classes defined in the module (BlockType.LEVER has
no implementing class, so no block can carry it). -/
inductive BlockId where
  | air
  | wire
  | power
  | delayer
deriving DecidableEq

structure Block where
  bid : BlockId
  state : StateDict
  coords : Coords
  last_updated : Int
  gid : Nat
deriving DecidableEq

structure EState where
  tick : Int
  blocks : List (Coords × Block)
  buffer : List Coords
  supply : Nat
deriving DecidableEq

inductive PyErr where
  | keyError
  | typeError
  | versionError
deriving DecidableEq

/-- `Utils.get_surrounding_block(coords, direction)`: `None` and the empty
list fall back to all four directions (`direction or [...]` is evaluated
by truthiness), a string yields the single corresponding neighbor. -/
def getSurrounding (c : Coords) : Option Facing → List Coords
  | none => allDirs.map (fun d => d.offset c)
  | some (Facing.dir d) => [d.offset c]
  | some (Facing.dirs l) => (if l.isEmpty then allDirs else l).map (fun d => d.offset c)

def lookupB : List (Coords × Block) → Coords → Option Block
  | [], _ => none
  | p :: l, c => if p.1 = c then some p.2 else lookupB l c

/-- Writing a block back at its key: Python mutates the object held in the
dict in place, which keeps the key and replaces the value. -/
def setB (l : List (Coords × Block)) (c : Coords) (b : Block) : List (Coords × Block) :=
  l.map (fun p => if p.1 = c then (c, b) else p)

/-- The synthetic Air block `Air(self, {}, coords)` built by `get_block`:
`Block.__init__` stores an empty state, the coordinates,
`last_updated = engine.tick - 1` and a fresh identity token, then runs
`self.update(engine)`, which for Air is a no-op. -/
def airBlockAt (st : EState) (c : Coords) : Block :=
  { bid := BlockId.air, state := {}, coords := c, last_updated := st.tick - 1, gid := st.supply }

/-- `Engine.get_block`: the default argument `Air(self, {}, coords)` is
evaluated eagerly on every call (consuming a fresh identity token), and
the stored block is returned when the key is present. -/
def getBlock (st : EState) (c : Coords) : Block × EState :=
  (match lookupB st.blocks c with
   | some b => b
   | none => airBlockAt st c,
   { st with supply := st.supply + 1 })

/-- `Engine.schedule_update`: adds the block to the pending set (set
semantics, so re-adding an already pending block is a no-op). -/
def schedule (st : EState) (c : Coords) : EState :=
  { st with buffer := st.buffer.insert c }

def signalOr0 (b : Block) : Int :=
  match b.state.signal with
  | some s => s
  | none => 0

/-- The directional check of `Wire.update` line 231: a neighbor with a
single facing direction admits the wire only at the opposite side, a
neighbor with a facing list admits it at any of the listed sides. -/
def wireAllows (nb : Block) (target : Coords) : Bool :=
  match nb.state.facing with
  | none => true
  | some (Facing.dir f) => decide (target ∈ getSurrounding nb.coords (some (Facing.dirs [f.opposite])))
  | some (Facing.dirs l) => decide (target ∈ getSurrounding nb.coords (some (Facing.dirs l)))

/-- One iteration of the `Wire.update` loop body: fetch the neighbor,
schedule it when it was not updated after this wire and is not Air, then
fold its attenuated signal into the accumulator unless its facing
excludes this wire. -/
def wireVisit (me : Block) (acc : EState × Int) (c : Coords) : EState × Int :=
  let r := getBlock acc.1 c
  let st2 := if r.1.last_updated ≤ me.last_updated ∧ r.1.bid ≠ BlockId.air then schedule r.2 c else r.2
  if truthyFacing r.1.state.facing ∧ wireAllows r.1 me.coords = false then (st2, acc.2)
  else (st2, max (signalOr0 r.1 - 1) acc.2)

/-- The body of `Wire.update` once `facing` is known present: fold the
loop over the neighbors, store the final signal and mark the wire. -/
def wireGo (st : EState) (b : Block) (f : Facing) : Block × EState × Option PyErr :=
  let r := (getSurrounding b.coords (some f)).foldl (wireVisit b) (st, 0)
  ({ b with state := { b.state with signal := some r.2 }, last_updated := st.tick }, r.1, none)

/-- `Wire.update`: `self.state['signal'] = 0` runs before `facing` is
read, so a missing `facing` raises KeyError with the signal already
zeroed; otherwise the loop folds the neighbors and `last_updated` is set
to the current tick at the end. -/
def wireUpdate (st : EState) (b : Block) : Block × EState × Option PyErr :=
  match b.state.facing with
  | none => ({ b with state := { b.state with signal := some 0 } }, st, some PyErr.keyError)
  | some f => wireGo st b f

/-- One iteration of the `Power.update` loop body. -/
def powerVisit (t : Int) (acc : EState) (c : Coords) : EState :=
  let r := getBlock acc c
  if r.1.last_updated ≠ t ∧ r.1.bid ≠ BlockId.air then schedule r.2 c else r.2

/-- `Power.update`: schedules every non-Air neighbor not already updated
this tick, then marks itself; its own state dictionary is untouched. -/
def powerUpdate (st : EState) (b : Block) : Block × EState × Option PyErr :=
  let st' := (getSurrounding b.coords none).foldl (powerVisit st.tick) st
  ({ b with last_updated := st.tick }, st', none)

/-- `Power.__init__`: `Block.__init__` stores the fields, draws a fresh
identity token and runs one update, after which `signal` is forced to 16. -/
def mkPower (st : EState) (s0 : StateDict) (c : Coords) : Block × EState :=
  let b0 : Block := { bid := BlockId.power, state := s0, coords := c, last_updated := st.tick - 1, gid := st.supply }
  let st1 : EState := { st with supply := st.supply + 1 }
  let r := powerUpdate st1 b0
  ({ r.1 with state := { r.1.state with signal := some 16 } }, r.2.1)

/-- The tail of `Delayer.update` (lines 289-293): reschedule the input
and output neighbors when not yet updated this tick and not Air, then
mark the delayer. -/
def delayerFinish (st : EState) (tick0 : Int) (b2 : Block) (inC outC : Coords) (inB outB : Block) : Block × EState × Option PyErr :=
  let s3 := if inB.last_updated ≠ tick0 ∧ inB.bid ≠ BlockId.air then schedule st inC else st
  let s4 := if outB.last_updated ≠ tick0 ∧ outB.bid ≠ BlockId.air then schedule s3 outC else s3
  ({ b2 with last_updated := tick0 }, s4, none)

/-- The countdown branch of `Delayer.update` (lines 279-282): store
`max(v, 0)` into `timer` and force the signal to 16 when it reached zero. -/
def delayerTimer (st : EState) (tick0 : Int) (b : Block) (v : Int) (inC outC : Coords) (inB outB : Block) : Block × EState × Option PyErr :=
  let tm' := max v 0
  let b1 : Block := { b with state := { b.state with timer := some tm' } }
  let b2 : Block := if tm' = 0 then { b1 with state := { b1.state with signal := some 16 } } else b1
  delayerFinish st tick0 b2 inC outC inB outB

/-- `Delayer.update` for a direction-valued `facing`.  Line 276 calls
`Utils.get_surrounding_block(input_block.state['facing'])` with the
facing value in the coords position, which raises TypeError as soon as
the input or output neighbor has a truthy facing, before any state
mutation; the `return` on line 277 is unreachable for direction-valued
facings.  Otherwise the countdown/signal logic runs (a missing `delay`
raises KeyError before `timer` is written), both neighbors are
rescheduled when not yet updated and not Air, and the block marks itself. -/
def delayerGo (st : EState) (b : Block) (f : Dir) : Block × EState × Option PyErr :=
    let inC := f.offset b.coords
    let outC := f.opposite.offset b.coords
    let r1 := getBlock st inC
    let r2 := getBlock r1.2 outC
    let inB := r1.1
    let outB := r2.1
    let st2 := r2.2
    if truthyFacing inB.state.facing ∨ truthyFacing outB.state.facing then
      (b, st2, some PyErr.typeError)
    else
      if truthyInt inB.state.signal then
        if truthyInt b.state.timer then
          delayerTimer st2 st.tick b ((b.state.timer.getD 0) - 1) inC outC inB outB
        else
          match b.state.delay with
          | some dl => delayerTimer st2 st.tick b dl inC outC inB outB
          | none => (b, st2, some PyErr.keyError)
      else
        delayerFinish st2 st.tick { b with state := { b.state with timer := none, signal := some 0 } } inC outC inB outB

/-- Dispatch of `Delayer.update` on the shape of the `facing` entry; the
direction case is `delayerGo`. -/
def delayerUpdate (st : EState) (b : Block) : Block × EState × Option PyErr :=
  match b.state.facing with
  | none => (b, st, some PyErr.keyError)
  | some (Facing.dirs _) => (b, st, some PyErr.typeError)
  | some (Facing.dir f) => delayerGo st b f

/-- Polymorphic dispatch of `update` over the concrete block classes. -/
def updateBlock (st : EState) (b : Block) : Block × EState × Option PyErr :=
  match b.bid with
  | BlockId.air => (b, st, none)
  | BlockId.wire => wireUpdate st b
  | BlockId.power => powerUpdate st b
  | BlockId.delayer => delayerUpdate st b

/-- Outcome of one `tick_ahead` call: normal return, or an exception
propagating out of an update with the engine state mutated so far.  The
trace records the coordinate key of every update invocation. -/
inductive TickRes where
  | done (st : EState) (tr : List Coords)
  | raised (e : PyErr) (st : EState) (tr : List Coords)
deriving DecidableEq

/-- `Engine.tick_ahead`.  The outer scan stacks `filter` objects over one
shared iterator of `blocks.values()`, so each stored block is examined at
most once; finding an unmarked block overwrites `update_buffer` with that
singleton and the inner loop pops (arbitrary order, chosen by `oracle`)
until the buffer drains; exhaustion of the iterator breaks the loop and
the tick counter increments.  The Boolean phase distinguishes the inner
drain from the outer scan (the stale buffer contents at entry are ignored
until the first overwrite, as in the source).  Recursion is on explicit
fuel; `none` means the fuel ran out. -/
def tickLoop (oracle : Nat → Nat) : Nat → Nat → Bool → List Coords → EState → List Coords → Option TickRes
  | 0, _, _, _, _, _ => none
  | Nat.succ fuel, n, true, rest, st, tr =>
    if st.buffer = [] then tickLoop oracle fuel n false rest st tr
    else
      let c := st.buffer.getD (oracle n % st.buffer.length) (0, 0, 0)
      let st0 : EState := { st with buffer := st.buffer.erase c }
      match lookupB st0.blocks c with
      | none => none
      | some b =>
        let r := updateBlock st0 b
        let st2 : EState := { r.2.1 with blocks := setB r.2.1.blocks c r.1 }
        match r.2.2 with
        | some e => some (TickRes.raised e st2 (tr ++ [c]))
        | none => tickLoop oracle fuel (n + 1) true rest st2 (tr ++ [c])
  | Nat.succ fuel, n, false, rest, st, tr =>
    match rest with
    | [] => some (TickRes.done { st with tick := st.tick + 1 } tr)
    | k :: rest' =>
      match lookupB st.blocks k with
      | none => none
      | some b =>
        if b.last_updated = st.tick then tickLoop oracle fuel n false rest' st tr
        else tickLoop oracle fuel n true rest' { st with buffer := [k] } tr

def tickAhead (oracle : Nat → Nat) (fuel : Nat) (st : EState) : Option TickRes :=
  tickLoop oracle fuel 0 false (st.blocks.map Prod.fst) st []

/-- `Engine.VERSION = (1, 0, 0)`. -/
def VERSION : Nat × Nat × Nat := (1, 0, 0)

/-- The pickled unit written by `Engine.save`: `(Engine.VERSION,
self.blocks, self.tick)`. -/
structure Payload where
  version : Nat × Nat × Nat
  blocks : List (Coords × Block)
  tick : Int
deriving DecidableEq

def save (st : EState) : Payload :=
  { version := VERSION, blocks := st.blocks, tick := st.tick }

/-- Python lexicographic comparison of version triples, as used by
`version > Engine.VERSION`. -/
def verGt (a b : Nat × Nat × Nat) : Bool :=
  a.1 > b.1 ∨ (a.1 = b.1 ∧ (a.2.1 > b.2.1 ∨ (a.2.1 = b.2.1 ∧ a.2.2 > b.2.2)))

/-- `Engine.load` as the caller observes it: the version check may raise,
and on success the method falls off the end, returning `None` — the
engine assembled on lines 103-104 is never handed back. -/
def loadRun (data : Payload) : Except PyErr Unit :=
  if verGt data.version VERSION then Except.error PyErr.versionError
  else Except.ok ()

/-- The engine `Engine.load` assembles internally on lines 103-104 before
discarding it: a fresh engine whose blocks and tick are overwritten with
the persisted fields. -/
def loadedEngine (data : Payload) : Except PyErr EState :=
  if verGt data.version VERSION then Except.error PyErr.versionError
  else Except.ok { tick := data.tick, blocks := data.blocks, buffer := [], supply := 0 }

/-- `Block.__eq__`: same concrete class and same identity token; the
coordinates and the state take no part. -/
def blockEq (a b : Block) : Bool :=
  a.bid == b.bid && a.gid == b.gid

/-- The direction list a `facing` entry denotes under the engine's
resolution: a string is itself, the empty list falls back to all four
directions by truthiness, a nonempty list is itself. -/
def facingDirs : Facing → List Dir
  | Facing.dir d => [d]
  | Facing.dirs l => if l.isEmpty then allDirs else l

/-- Folding one neighbor into the wire-signal maximum: the neighbor's
signal minus one counts unless the neighbor's facing excludes this wire;
an absent neighbor is an empty Air block of signal 0 and no facing. -/
def wireConsider (B : List (Coords × Block)) (me : Block) (s : Int) (c : Coords) : Int :=
  match lookupB B c with
  | none => max (0 - 1) s
  | some nb =>
    if truthyFacing nb.state.facing ∧ wireAllows nb me.coords = false then s
    else max (signalOr0 nb - 1) s

/-- The wire signal the specification describes: the maximum over the
neighbors in the given directions of the neighbor signal minus one,
floored at zero, a neighbor counting only when its facing does not
exclude this wire. -/
def wireSignalSpec (st : EState) (me : Block) (ds : List Dir) : Int :=
  ds.foldl (fun s d => wireConsider st.blocks me s (d.offset me.coords)) 0

/-- A neighbor carries a facing restriction that disallows facing the
given position: its facing is truthy and the position is not among the
sides its facing admits. -/
def disallowsFacingTowards (nb : Block) (target : Coords) : Bool :=
  truthyFacing nb.state.facing && !(wireAllows nb target)

/-- Fuel that provably suffices for `tickAhead` to finish. -/
def fuelBound (st : EState) : Nat :=
  3 * st.blocks.length + (st.blocks.length + 2) * st.blocks.length + 1

/-- The number of map entries not yet updated at tick `t`. -/
def unmarkedCount (t : Int) (l : List (Coords × Block)) : Nat :=
  l.countP (fun p => p.2.last_updated != t)

/-- The termination measure of the tick loop: the unscanned suffix, the
pending buffer during a drain, and the unmarked blocks, the latter
weighted so that the neighbors one update may schedule are paid for. -/
def loopMeasure (n : Nat) (t : Int) (phase : Bool) (rest : List Coords) (st : EState) : Nat :=
  3 * rest.length + (cond phase (st.buffer.length + 1) 0) + (n + 2) * unmarkedCount t st.blocks

/-- A key whose block no longer needs attention this tick: marked, or an
Air block (whose update would be a no-op anyway). -/
def deadKey (t : Int) (st : EState) (k : Coords) : Prop :=
  ∀ b, lookupB st.blocks k = some b → b.last_updated = t ∨ b.bid = BlockId.air

/-- Facts shared by both phases of the tick loop: the tick is fixed, the
key list is stable and duplicate-free, blocks sit at their own
coordinates with `last_updated` at most the tick, the unscanned suffix is
a duplicate-free subset of the keys, and no key was updated twice. -/
structure CoreInv (t : Int) (keys0 rest : List Coords) (st : EState) (tr : List Coords) : Prop where
  tick_eq : st.tick = t
  keys_eq : st.blocks.map Prod.fst = keys0
  keys_nd : keys0.Nodup
  coh : ∀ p ∈ st.blocks, p.2.coords = p.1
  lu_le : ∀ p ∈ st.blocks, p.2.last_updated ≤ t
  rest_sub : rest ⊆ keys0
  rest_nd : rest.Nodup
  tr_cnt : ∀ c : Coords, tr.count c ≤ 1

/-- The invariant of the outer scan: every key is dead, still to be
scanned, and a traced key is dead or a scanned-away Air key. -/
structure ScanInv (t : Int) (keys0 rest : List Coords) (st : EState) (tr : List Coords) : Prop where
  core : CoreInv t keys0 rest st tr
  alive : ∀ k ∈ keys0, deadKey t st k ∨ k ∈ rest
  trDead : ∀ c ∈ tr, ∀ b, lookupB st.blocks c = some b →
    b.last_updated = t ∨ (b.bid = BlockId.air ∧ c ∉ rest)

/-- The invariant of the cascade drain: additionally the pending buffer is
duplicate-free, holds only present unmarked blocks, and an Air block can
sit there only as the scan seed, no longer in the unscanned suffix. -/
structure DrainInv (t : Int) (keys0 rest : List Coords) (st : EState) (tr : List Coords) : Prop where
  core : CoreInv t keys0 rest st tr
  alive : ∀ k ∈ keys0, deadKey t st k ∨ k ∈ rest ∨ k ∈ st.buffer
  trDead : ∀ c ∈ tr, ∀ b, lookupB st.blocks c = some b →
    b.last_updated = t ∨ (b.bid = BlockId.air ∧ c ∉ rest ∧ c ∉ st.buffer)
  buf_nd : st.buffer.Nodup
  buf_ok : ∀ c ∈ st.buffer, ∃ b, lookupB st.blocks c = some b ∧ b.last_updated ≠ t
  buf_air : ∀ c ∈ st.buffer, ∀ b, lookupB st.blocks c = some b → b.bid = BlockId.air → c ∉ rest

/-- The phase-indexed loop invariant. -/
def LoopInv (t : Int) (keys0 : List Coords) (phase : Bool) (rest : List Coords) (st : EState) (tr : List Coords) : Prop :=
  match phase with
  | true => DrainInv t keys0 rest st tr
  | false => ScanInv t keys0 rest st tr

/-- A Power block placed at the origin, one tick behind. -/
def demoPower : Block :=
  { bid := BlockId.power, state := { signal := some 16 }, coords := (0, 0, 0), last_updated := 0, gid := 0 }

/-- A world holding only `demoPower`, at tick 1. -/
def w1 : EState :=
  { tick := 1, blocks := [((0, 0, 0), demoPower)], buffer := [], supply := 0 }

/-- The state `tick_ahead` leaves `w1` in. -/
def w1' : EState :=
  { tick := 2, blocks := [((0, 0, 0), { demoPower with last_updated := 1 })], buffer := [], supply := 4 }

/-- An Air block stored in the world map (the public `add_blocks` performs
no validation, so nothing stops a caller from storing one). -/
def airB : Block :=
  { bid := BlockId.air, state := {}, coords := (0, 0, 0), last_updated := 0, gid := 0 }

/-- A world whose map holds only the Air block `airB`, at tick 1. -/
def wAir : EState :=
  { tick := 1, blocks := [((0, 0, 0), airB)], buffer := [], supply := 0 }

/-- The state `tick_ahead` leaves `wAir` in: the Air block kept
`last_updated = 0`. -/
def wAir' : EState :=
  { tick := 2, blocks := [((0, 0, 0), airB)], buffer := [], supply := 0 }

/-- An Air block at (5,0,0) whose update returns without setting
`last_updated`. -/
def a9 : Block :=
  { bid := BlockId.air, state := {}, coords := (5, 0, 0), last_updated := 0, gid := 0 }

/-- A world holding only `a9`. -/
def w9 : EState :=
  { tick := 1, blocks := [((5, 0, 0), a9)], buffer := [], supply := 0 }

/-- The state `tick_ahead` leaves `w9` in: it terminated after scanning
`a9` exactly once. -/
def w9' : EState :=
  { tick := 2, blocks := [((5, 0, 0), a9)], buffer := [], supply := 0 }

/-- A world with a Power block at (2,0,0), used to instantiate the
termination bound. -/
def w9w : EState :=
  { tick := 1,
    blocks := [((2, 0, 0), { bid := BlockId.power, state := { signal := some 16 }, coords := (2, 0, 0), last_updated := 0, gid := 0 })],
    buffer := [], supply := 1 }

/-- A wire sitting north of the origin that faces east, so it does not
admit the origin among its input sides. -/
def wEastNb : Block :=
  { bid := BlockId.wire, state := { signal := some 4, facing := some (Facing.dir Dir.east) }, coords := (1, 0, 0), last_updated := 0, gid := 1 }

/-- A world holding `wEastNb`, at tick 1. -/
def st3w : EState :=
  { tick := 1, blocks := [((1, 0, 0), wEastNb)], buffer := [], supply := 5 }

/-- A delayer at the origin facing north with delay 2, whose input
neighbor is `wEastNb`. -/
def d3b : Block :=
  { bid := BlockId.delayer, state := { facing := some (Facing.dir Dir.north), delay := some 2 }, coords := (0, 0, 0), last_updated := 0, gid := 9 }

/-- A wire north of the origin facing north: its single facing admits the
block south of it, i.e. it points at the origin. -/
def wN5 : Block :=
  { bid := BlockId.wire, state := { signal := some 5, facing := some (Facing.dir Dir.north) }, coords := (1, 0, 0), last_updated := 0, gid := 2 }

/-- A delayer at the origin facing north with delay 1 and signal 0; its
input neighbor `wN5` carries the nonzero signal 5 and legitimately faces
the delayer. -/
def d5b : Block :=
  { bid := BlockId.delayer, state := { signal := some 0, facing := some (Facing.dir Dir.north), delay := some 1 }, coords := (0, 0, 0), last_updated := 0, gid := 7 }

/-- The world holding `wN5` and `d5b`, at tick 1. -/
def st5w : EState :=
  { tick := 1, blocks := [((1, 0, 0), wN5), ((0, 0, 0), d5b)], buffer := [], supply := 10 }

/-- A wire at the origin whose `facing` entry is the empty list. -/
def wE4 : Block :=
  { bid := BlockId.wire, state := { signal := some 0, facing := some (Facing.dirs []) }, coords := (0, 0, 0), last_updated := 0, gid := 3 }

/-- A Power block north of the origin with signal 16. -/
def pN4 : Block :=
  { bid := BlockId.power, state := { signal := some 16 }, coords := (1, 0, 0), last_updated := 0, gid := 4 }

/-- The world holding `pN4` and `wE4`, at tick 1. -/
def st4c : EState :=
  { tick := 1, blocks := [((1, 0, 0), pN4), ((0, 0, 0), wE4)], buffer := [], supply := 20 }

/-- A wire at the origin facing north towards the Power block `pN4`. -/
def w4b : Block :=
  { bid := BlockId.wire, state := { signal := some 0, facing := some (Facing.dir Dir.north) }, coords := (0, 0, 0), last_updated := 0, gid := 5 }

/-- The world holding `pN4` and `w4b`, at tick 1. -/
def st4w : EState :=
  { tick := 1, blocks := [((1, 0, 0), pN4), ((0, 0, 0), w4b)], buffer := [], supply := 30 }

/-- A Power block at the origin, one tick behind. -/
def b8 : Block :=
  { bid := BlockId.power, state := { signal := some 16 }, coords := (0, 0, 0), last_updated := 0, gid := 6 }

/-- A wire north of the origin, not yet updated this tick. -/
def nb8 : Block :=
  { bid := BlockId.wire, state := { signal := some 0, facing := some (Facing.dir Dir.north) }, coords := (1, 0, 0), last_updated := 0, gid := 8 }

/-- The world holding `b8` and `nb8`, at tick 1. -/
def st8w : EState :=
  { tick := 1, blocks := [((0, 0, 0), b8), ((1, 0, 0), nb8)], buffer := [], supply := 40 }

/-- A world with one stored block whose identity token 0 is below the
supply 3, so every token the supply hands out is fresh. -/
def cW10 : EState :=
  { tick := 1,
    blocks := [((0, 0, 0), { bid := BlockId.wire, state := {}, coords := (0, 0, 0), last_updated := 0, gid := 0 })],
    buffer := [], supply := 3 }

/-- A payload stamped with version (2,0,0), above the engine's (1,0,0). -/
def pay2 : Payload :=
  { version := (2, 0, 0), blocks := [], tick := 1 }

/-- An empty engine at tick 5. -/
def e2w : EState :=
  { tick := 5, blocks := [], buffer := [], supply := 0 }

theorem schedule_blocks (st : EState) (c : Coords) : (schedule st c).blocks = st.blocks := rfl

theorem schedule_tick (st : EState) (c : Coords) : (schedule st c).tick = st.tick := rfl

theorem getBlock_snd_blocks (st : EState) (c : Coords) : ((getBlock st c).2).blocks = st.blocks := rfl

theorem getBlock_snd_tick (st : EState) (c : Coords) : ((getBlock st c).2).tick = st.tick := rfl

theorem getBlock_snd_buffer (st : EState) (c : Coords) : ((getBlock st c).2).buffer = st.buffer := rfl

/-- C7: `get_block` returns the stored block when the coordinate is
occupied and otherwise a synthetic Air block; it never mutates the block
map, the pending set or the tick, and the Air block's update is a no-op
that changes nothing. -/
theorem get_block_spec (st : EState) (c : Coords) :
    ((getBlock st c).2).blocks = st.blocks ∧
    ((getBlock st c).2).buffer = st.buffer ∧
    ((getBlock st c).2).tick = st.tick ∧
    (getBlock st c).1 = (match lookupB st.blocks c with
      | some b => b
      | none => airBlockAt st c) ∧
    (∀ st2 : EState, updateBlock st2 (airBlockAt st c) = (airBlockAt st c, st2, none)) :=
  ⟨rfl, rfl, rfl, rfl, fun _ => rfl⟩

/-- C10: on an absent coordinate each `get_block` call builds a fresh Air
block with a newly drawn identity token, so two successive calls return
blocks that are unequal to each other and to every stored block, block
equality comparing concrete class and identity token only. -/
theorem fresh_air_identity (st : EState) (c : Coords)
    (habs : lookupB st.blocks c = none)
    (hfresh : ∀ p ∈ st.blocks, p.2.gid < st.supply) :
    blockEq (getBlock st c).1 (getBlock (getBlock st c).2 c).1 = false ∧
    (∀ p ∈ st.blocks, blockEq (getBlock st c).1 p.2 = false ∧
      blockEq p.2 (getBlock st c).1 = false) ∧
    (∀ a b : Block, blockEq a b = (a.bid == b.bid && a.gid == b.gid)) := by
  have h1 : (getBlock st c).1 = airBlockAt st c := by
    simp [getBlock, habs]
  have habs2 : lookupB ((getBlock st c).2).blocks c = none := by
    rw [getBlock_snd_blocks]; exact habs
  have h2 : (getBlock (getBlock st c).2 c).1 = airBlockAt ((getBlock st c).2) c := by
    simp [getBlock, habs]
  refine ⟨?_, ?_, fun a b => rfl⟩
  · rw [h1, h2]
    simp [blockEq, airBlockAt, getBlock]
  · intro p hp
    have hg := hfresh p hp
    rw [h1]
    constructor
    · simp [blockEq, airBlockAt]
      omega
    · simp [blockEq, airBlockAt]
      omega

/-- C10 witness: the concrete world `cW10` at the unoccupied coordinate
(9,9,9). -/
theorem fresh_air_identity_witness :
    blockEq (getBlock cW10 (9, 9, 9)).1 (getBlock (getBlock cW10 (9, 9, 9)).2 (9, 9, 9)).1 = false :=
  (fresh_air_identity cW10 (9, 9, 9) (by decide) (by decide)).1

/-- C6: `load` fails exactly on payloads whose version is lexicographically
above the running `Engine.VERSION`, succeeds on equal or older versions,
and `save` always stamps the current version into the payload. -/
theorem load_version_contract :
    (∀ data : Payload, loadRun data = Except.error PyErr.versionError ↔ verGt data.version VERSION = true) ∧
    (∀ data : Payload, verGt data.version VERSION = false → loadRun data = Except.ok ()) ∧
    (∀ st : EState, (save st).version = VERSION) := by
  refine ⟨fun data => ?_, fun data h => ?_, fun st => rfl⟩
  · unfold loadRun
    constructor
    · intro h
      by_contra hv
      simp [Bool.not_eq_true] at hv
      simp [hv] at h
    · intro h
      simp [h]
  · unfold loadRun
    simp [h]

/-- C6 witness: the payload `pay2` declares version (2,0,0) and `load`
rejects it. -/
theorem load_version_contract_witness :
    loadRun pay2 = Except.error PyErr.versionError :=
  (load_version_contract.1 pay2).mpr (by decide)

/-- C2: saving the engine `e2w` and loading the file back does succeed of
the version check, and the engine rebuilt internally on lines 103-104
carries the saved block map and tick — but the `load` method has no
return statement, so the caller receives `None` and the rebuilt engine is
discarded. -/
theorem load_discards_engine :
    loadRun (save e2w) = Except.ok () ∧
    loadedEngine (save e2w) = Except.ok { tick := 5, blocks := [], buffer := [], supply := 0 } :=
  ⟨rfl, rfl⟩

/-- C3: when the input or output neighbor of a delayer carries a facing
restriction that does not admit the delayer's position, the delayer's
update aborts (here: raises, since line 276 hands the facing value to
`Utils.get_surrounding_block` in the coords position) with the delayer's
state dictionary and `last_updated` untouched. -/
theorem delayer_blocked_abort (st : EState) (b : Block) (f : Dir)
    (hf : b.state.facing = some (Facing.dir f))
    (hdis : disallowsFacingTowards (getBlock st (f.offset b.coords)).1 b.coords = true ∨
      disallowsFacingTowards (getBlock ((getBlock st (f.offset b.coords)).2) (f.opposite.offset b.coords)).1 b.coords = true) :
    (delayerUpdate st b).2.2.isSome = true ∧
    (delayerUpdate st b).1.state = b.state ∧
    (delayerUpdate st b).1.last_updated = b.last_updated := by
  have htr : truthyFacing ((getBlock st (f.offset b.coords)).1).state.facing = true ∨
      truthyFacing ((getBlock ((getBlock st (f.offset b.coords)).2) (f.opposite.offset b.coords)).1).state.facing = true := by
    rcases hdis with h | h
    · simp only [disallowsFacingTowards, Bool.and_eq_true] at h
      exact Or.inl h.1
    · simp only [disallowsFacingTowards, Bool.and_eq_true] at h
      exact Or.inr h.1
  have hd : delayerUpdate st b = delayerGo st b f := by
    unfold delayerUpdate
    rw [hf]
  rw [hd]
  simp only [delayerGo]
  rw [if_pos htr]
  exact ⟨rfl, rfl, rfl⟩

/-- C3 witness: the delayer `d3b` faces north; its input neighbor
`wEastNb` faces east and does not admit the origin, and the update aborts
without touching the delayer. -/
theorem delayer_blocked_abort_witness :
    (delayerUpdate st3w d3b).2.2.isSome = true ∧
    (delayerUpdate st3w d3b).1.state = d3b.state ∧
    (delayerUpdate st3w d3b).1.last_updated = d3b.last_updated :=
  delayer_blocked_abort st3w d3b Dir.north rfl (Or.inl (by decide))

/-- C5: the delayer `d5b` (delay 1) has the input neighbor `wN5` carrying
the constant nonzero signal 5 and facing the delayer; its very first
update raises TypeError — line 276 passes the neighbor's facing string as
coordinates — so its signal stays 0 instead of reaching 16 at the second
update. -/
theorem delayer_crash_on_wired_input :
    (delayerUpdate st5w d5b).2.2 = some PyErr.typeError ∧
    (delayerUpdate st5w d5b).1 = d5b ∧
    truthyInt ((getBlock st5w (1, 0, 0)).1.state.signal) = true ∧
    wireAllows (getBlock st5w (1, 0, 0)).1 (0, 0, 0) = true := by
  refine ⟨by decide, by decide, by decide, by decide⟩

theorem wireVisit_fst_blocks (me : Block) (a : EState × Int) (c : Coords) :
    ((wireVisit me a c).1).blocks = a.1.blocks := by
  simp only [wireVisit]
  split_ifs <;> rfl

theorem wireVisit_snd (me : Block) (a : EState × Int) (c : Coords) :
    (wireVisit me a c).2 = wireConsider a.1.blocks me a.2 c := by
  cases h : lookupB a.1.blocks c with
  | none =>
    simp only [wireVisit, wireConsider, getBlock, h]
    split_ifs with h1 h2 <;>
      simp_all [airBlockAt, truthyFacing, signalOr0]
  | some nb =>
    simp only [wireVisit, wireConsider, getBlock, h]
    split_ifs <;> rfl

theorem wireFold_snd (me : Block) (B : List (Coords × Block)) :
    ∀ (cs : List Coords) (a : EState × Int), a.1.blocks = B →
    (cs.foldl (wireVisit me) a).2 = cs.foldl (wireConsider B me) a.2 := by
  intro cs
  induction cs with
  | nil => intro a hB; rfl
  | cons c cs ih =>
    intro a hB
    simp only [List.foldl_cons]
    rw [ih (wireVisit me a c) (by rw [wireVisit_fst_blocks, hB])]
    rw [wireVisit_snd, hB]

theorem wireUpdate_some (st : EState) (b : Block) (f : Facing)
    (hf : b.state.facing = some f) : wireUpdate st b = wireGo st b f := by
  unfold wireUpdate
  rw [hf]

theorem getSurrounding_facingDirs (c : Coords) (f : Facing) :
    getSurrounding c (some f) = (facingDirs f).map (fun d => d.offset c) := by
  cases f <;> rfl

/-- C4 (amended): a wire with a `facing` entry completes its update with
its signal equal to the spec's maximum over the neighbors in the
directions its facing resolves to — where the empty list resolves, by
Python truthiness, to all four directions — and with `last_updated` set
to the current tick. -/
theorem wire_signal_formula (st : EState) (b : Block) (f : Facing)
    (hf : b.state.facing = some f) :
    (wireUpdate st b).2.2 = none ∧
    (wireUpdate st b).1.state.signal = some (wireSignalSpec st b (facingDirs f)) ∧
    (wireUpdate st b).1.last_updated = st.tick := by
  rw [wireUpdate_some st b f hf]
  refine ⟨rfl, ?_, rfl⟩
  have h1 : ((getSurrounding b.coords (some f)).foldl (wireVisit b) (st, 0)).2
      = (getSurrounding b.coords (some f)).foldl (wireConsider st.blocks b) 0 :=
    wireFold_snd b st.blocks _ (st, 0) rfl
  have h2 : (getSurrounding b.coords (some f)).foldl (wireConsider st.blocks b) 0
      = wireSignalSpec st b (facingDirs f) := by
    rw [getSurrounding_facingDirs, List.foldl_map]
    rfl
  simp only [wireGo]
  rw [h1, h2]

/-- C4 witness: the wire `w4b` faces north at the Power block `pN4`, and
one update leaves it at signal 15, matching the spec formula. -/
theorem wire_signal_formula_witness :
    (wireUpdate st4w w4b).2.2 = none ∧
    (wireUpdate st4w w4b).1.state.signal = some (wireSignalSpec st4w w4b (facingDirs (Facing.dir Dir.north))) ∧
    (wireUpdate st4w w4b).1.last_updated = st4w.tick :=
  wire_signal_formula st4w w4b (Facing.dir Dir.north) rfl

/-- C4 counterexample: the wire `wE4` carries the empty facing list; the
claim's maximum over its configured directions (none) is 0, but the code
treats the empty list as all four directions and the update stores
signal 15 from the Power block to the north. -/
theorem wire_empty_facing_cex :
    (wireUpdate st4c wE4).1.state.signal = some 15 ∧
    wireSignalSpec st4c wE4 [] = 0 := by
  refine ⟨by decide, by decide⟩

theorem powerVisit_blocks (t : Int) (a : EState) (c : Coords) :
    (powerVisit t a c).blocks = a.blocks := by
  simp only [powerVisit]
  split_ifs <;> rfl

theorem powerVisit_mem (t : Int) (a : EState) (c : Coords) (k : Coords) :
    k ∈ (powerVisit t a c).buffer ↔
      k ∈ a.buffer ∨
        (k = c ∧ ∃ nb, lookupB a.blocks k = some nb ∧ nb.bid ≠ BlockId.air ∧ nb.last_updated ≠ t) := by
  constructor
  · intro hk
    simp only [powerVisit] at hk
    cases h : lookupB a.blocks c with
    | none =>
      simp only [getBlock, h] at hk
      rw [if_neg (by simp [airBlockAt])] at hk
      exact Or.inl hk
    | some nb =>
      simp only [getBlock, h] at hk
      by_cases hc : nb.last_updated ≠ t ∧ nb.bid ≠ BlockId.air
      · rw [if_pos hc] at hk
        rcases List.mem_insert_iff.mp hk with hkc | hkb
        · subst hkc
          exact Or.inr ⟨rfl, nb, h, hc.2, hc.1⟩
        · exact Or.inl hkb
      · rw [if_neg hc] at hk
        exact Or.inl hk
  · intro hk
    simp only [powerVisit]
    rcases hk with hk | ⟨hkc, nb, h, hair, hlu⟩
    · cases h : lookupB a.blocks c with
      | none =>
        simp only [getBlock, h]
        rw [if_neg (by simp [airBlockAt])]
        exact hk
      | some nb =>
        simp only [getBlock, h]
        split_ifs with hc
        · exact List.mem_insert_iff.mpr (Or.inr hk)
        · exact hk
    · subst hkc
      simp only [getBlock, h]
      rw [if_pos ⟨hlu, hair⟩]
      exact List.mem_insert_iff.mpr (Or.inl rfl)

theorem powerFold_mem (t : Int) :
    ∀ (cs : List Coords) (a : EState) (k : Coords),
    (k ∈ (cs.foldl (powerVisit t) a).buffer ↔
      k ∈ a.buffer ∨
        (k ∈ cs ∧ ∃ nb, lookupB a.blocks k = some nb ∧ nb.bid ≠ BlockId.air ∧ nb.last_updated ≠ t)) := by
  intro cs
  induction cs with
  | nil => intro a k; simp
  | cons c cs ih =>
    intro a k
    simp only [List.foldl_cons]
    rw [ih (powerVisit t a c) k, powerVisit_blocks, powerVisit_mem]
    simp only [List.mem_cons]
    generalize (∃ nb, lookupB a.blocks k = some nb ∧ nb.bid ≠ BlockId.air ∧ nb.last_updated ≠ t) = P
    tauto

theorem mem_getSurrounding_all (c k : Coords) :
    k ∈ getSurrounding c none ↔ ∃ d : Dir, k = d.offset c := by
  simp only [getSurrounding, allDirs, List.map_cons, List.map_nil, List.mem_cons,
    List.not_mem_nil, or_false]
  constructor
  · rintro (h | h | h | h)
    · exact ⟨Dir.north, h⟩
    · exact ⟨Dir.south, h⟩
    · exact ⟨Dir.east, h⟩
    · exact ⟨Dir.west, h⟩
  · rintro ⟨d, h⟩
    cases d
    · exact Or.inl h
    · exact Or.inr (Or.inl h)
    · exact Or.inr (Or.inr (Or.inl h))
    · exact Or.inr (Or.inr (Or.inr h))

/-- C8: a Power block's signal is 16 right after construction; its update
returns without touching its own state dictionary and schedules exactly
the blocks at the four cardinal neighbor positions that are present, are
not Air and have `last_updated` different from the current tick. -/
theorem power_block_spec :
    (∀ (st : EState) (s0 : StateDict) (c : Coords), ((mkPower st s0 c).1).state.signal = some 16) ∧
    (∀ (st : EState) (b : Block), (powerUpdate st b).1.state = b.state ∧ (powerUpdate st b).2.2 = none) ∧
    (∀ (st : EState) (b : Block) (k : Coords), k ∈ ((powerUpdate st b).2.1).buffer ↔
      k ∈ st.buffer ∨
        ((∃ d : Dir, k = d.offset b.coords) ∧
          ∃ nb, lookupB st.blocks k = some nb ∧ nb.bid ≠ BlockId.air ∧ nb.last_updated ≠ st.tick)) := by
  refine ⟨fun st s0 c => rfl, fun st b => ⟨rfl, rfl⟩, fun st b k => ?_⟩
  have h := powerFold_mem st.tick (getSurrounding b.coords none) st k
  simp only [powerUpdate]
  rw [h, mem_getSurrounding_all]

/-- C8 witness: updating the Power block `b8` in `st8w` schedules the
not-yet-updated wire at (1,0,0). -/
theorem power_block_spec_witness :
    ((1 : Int), (0 : Int), (0 : Int)) ∈ ((powerUpdate st8w b8).2.1).buffer :=
  (power_block_spec.2.2 st8w b8 (1, 0, 0)).mpr
    (Or.inr ⟨⟨Dir.north, by decide⟩, nb8, by decide, by decide, by decide⟩)

theorem lookupB_mem : ∀ {l : List (Coords × Block)} {c : Coords} {b : Block},
    lookupB l c = some b → (c, b) ∈ l := by
  intro l
  induction l with
  | nil => intro c b h; simp [lookupB] at h
  | cons p l ih =>
    intro c b h
    obtain ⟨p1, p2⟩ := p
    simp only [lookupB] at h
    by_cases hp : p1 = c
    · rw [if_pos hp] at h
      injection h with h2
      subst hp
      subst h2
      exact List.mem_cons_self _ _
    · rw [if_neg hp] at h
      exact List.mem_cons_of_mem _ (ih h)

theorem mem_keys_of_lookupB {l : List (Coords × Block)} {c : Coords} {b : Block}
    (h : lookupB l c = some b) : c ∈ l.map Prod.fst :=
  List.mem_map.mpr ⟨(c, b), lookupB_mem h, rfl⟩

theorem lookupB_some_of_mem_keys : ∀ {l : List (Coords × Block)} {c : Coords},
    c ∈ l.map Prod.fst → ∃ b, lookupB l c = some b := by
  intro l
  induction l with
  | nil => intro c h; simp at h
  | cons p l ih =>
    intro c h
    obtain ⟨p1, p2⟩ := p
    simp only [List.map_cons, List.mem_cons] at h
    by_cases hp : p1 = c
    · exact ⟨p2, by simp [lookupB, hp]⟩
    · rcases h with h | h
      · exact absurd h.symm hp
      · obtain ⟨b, hb⟩ := ih h
        exact ⟨b, by simp [lookupB, hp, hb]⟩

theorem lookupB_of_mem_nodup : ∀ {l : List (Coords × Block)},
    (l.map Prod.fst).Nodup → ∀ {c : Coords} {b : Block}, (c, b) ∈ l → lookupB l c = some b := by
  intro l
  induction l with
  | nil => intro _ c b h; simp at h
  | cons p l ih =>
    intro hnd c b h
    obtain ⟨p1, p2⟩ := p
    simp only [List.map_cons, List.nodup_cons] at hnd
    rcases List.mem_cons.mp h with h | h
    · injection h with h1 h2
      subst h1
      subst h2
      simp [lookupB]
    · have hc : p1 ≠ c := by
        intro he
        exact hnd.1 (he ▸ List.mem_map.mpr ⟨(c, b), h, rfl⟩)
      simp only [lookupB, if_neg hc]
      exact ih hnd.2 h

theorem setB_map_fst (l : List (Coords × Block)) (c : Coords) (b' : Block) :
    (setB l c b').map Prod.fst = l.map Prod.fst := by
  simp only [setB, List.map_map]
  apply List.map_congr_left
  intro p _
  by_cases hp : p.1 = c
  · simp [Function.comp, hp]
  · simp [Function.comp, hp]

theorem mem_setB {l : List (Coords × Block)} {c : Coords} {b' : Block} {p : Coords × Block}
    (hp : p ∈ setB l c b') : p = (c, b') ∨ (p ∈ l ∧ p.1 ≠ c) := by
  simp only [setB, List.mem_map] at hp
  obtain ⟨q, hq, hgq⟩ := hp
  by_cases h : q.1 = c
  · rw [if_pos h] at hgq
    exact Or.inl hgq.symm
  · rw [if_neg h] at hgq
    subst hgq
    exact Or.inr ⟨hq, h⟩

theorem lookupB_setB_ne {c' c : Coords} (h : c' ≠ c) :
    ∀ (l : List (Coords × Block)) (b' : Block), lookupB (setB l c b') c' = lookupB l c' := by
  intro l
  induction l with
  | nil => intro b'; rfl
  | cons p l ih =>
    intro b'
    obtain ⟨p1, p2⟩ := p
    simp only [setB, List.map_cons]
    by_cases hp : p1 = c
    · rw [if_pos hp]
      simp only [lookupB]
      rw [if_neg (fun he : c = c' => h he.symm), if_neg (fun he : p1 = c' => h (he.symm.trans hp))]
      exact ih b'
    · rw [if_neg hp]
      simp only [lookupB]
      by_cases hq : p1 = c'
      · rw [if_pos hq, if_pos hq]
      · rw [if_neg hq, if_neg hq]
        exact ih b'

theorem lookupB_setB_eq : ∀ {l : List (Coords × Block)} {c : Coords} {b b' : Block},
    lookupB l c = some b → lookupB (setB l c b') c = some b' := by
  intro l
  induction l with
  | nil => intro c b b' h; simp [lookupB] at h
  | cons p l ih =>
    intro c b b' h
    obtain ⟨p1, p2⟩ := p
    simp only [lookupB, setB, List.map_cons] at h ⊢
    by_cases hp : p1 = c
    · rw [if_pos hp]
      simp [lookupB]
    · rw [if_neg hp] at h
      rw [if_neg hp]
      simp only [lookupB, if_neg hp]
      exact ih h

theorem setB_of_not_mem : ∀ {l : List (Coords × Block)} {c : Coords} {b' : Block},
    c ∉ l.map Prod.fst → setB l c b' = l := by
  intro l
  induction l with
  | nil => intro c b' _; rfl
  | cons p l ih =>
    intro c b' h
    obtain ⟨p1, p2⟩ := p
    simp only [List.map_cons, List.mem_cons] at h
    push_neg at h
    simp only [setB, List.map_cons, if_neg (fun he : p1 = c => h.1 he.symm)]
    have := @ih c b' (by simpa [setB] using h.2)
    simpa [setB] using this

theorem setB_self : ∀ {l : List (Coords × Block)}, (l.map Prod.fst).Nodup →
    ∀ {c : Coords} {b : Block}, lookupB l c = some b → setB l c b = l := by
  intro l
  induction l with
  | nil => intro _ c b h; simp [lookupB] at h
  | cons p l ih =>
    intro hnd c b h
    obtain ⟨p1, p2⟩ := p
    simp only [List.map_cons, List.nodup_cons] at hnd
    simp only [lookupB] at h
    by_cases hp : p1 = c
    · rw [if_pos hp] at h
      injection h with h2
      subst hp
      subst h2
      simp only [setB, List.map_cons, if_pos rfl]
      have : setB l p1 p2 = l := setB_of_not_mem hnd.1
      simpa [setB] using this
    · rw [if_neg hp] at h
      simp only [setB, List.map_cons, if_neg hp]
      have := ih hnd.2 h
      simpa [setB] using this

theorem unmarkedCount_setB {t : Int} : ∀ {l : List (Coords × Block)},
    (l.map Prod.fst).Nodup → ∀ {c : Coords} {b b' : Block},
    lookupB l c = some b → b.last_updated ≠ t → b'.last_updated = t →
    unmarkedCount t (setB l c b') + 1 = unmarkedCount t l := by
  intro l
  induction l with
  | nil => intro _ c b b' h; simp [lookupB] at h
  | cons p l ih =>
    intro hnd c b b' h hb hb'
    obtain ⟨p1, p2⟩ := p
    simp only [List.map_cons, List.nodup_cons] at hnd
    simp only [lookupB] at h
    by_cases hp : p1 = c
    · rw [if_pos hp] at h
      injection h with h2
      have hnl : c ∉ l.map Prod.fst := hp ▸ hnd.1
      simp only [setB, List.map_cons, if_pos hp]
      have hrest : setB l c b' = l := setB_of_not_mem hnl
      simp only [setB] at hrest
      rw [hrest]
      subst h2
      have hbne : (b'.last_updated != t) = false := by simp [hb']
      have hbt : (p2.last_updated != t) = true := by simp [hb]
      simp [unmarkedCount, List.countP_cons, hbne, hbt]
    · rw [if_neg hp] at h
      simp only [setB, List.map_cons, if_neg hp]
      have hih := ih hnd.2 h hb hb'
      simp only [unmarkedCount, List.countP_cons] at hih ⊢
      simp only [setB] at hih
      omega

theorem nodup_subset_length {l₁ l₂ : List Coords} (h1 : l₁.Nodup) (hs : l₁ ⊆ l₂) :
    l₁.length ≤ l₂.length :=
  (h1.subperm hs).length_le

theorem nodup_insert_coords {l : List Coords} {a : Coords} (h : l.Nodup) :
    (l.insert a).Nodup := by
  by_cases hm : a ∈ l
  · rw [List.insert_of_mem hm]
    exact h
  · rw [List.insert_of_not_mem hm]
    exact List.nodup_cons.mpr ⟨hm, h⟩

theorem offset_ne (d : Dir) (c : Coords) : d.offset c ≠ c := by
  obtain ⟨x, y, z⟩ := c
  cases d <;> simp [Dir.offset, Prod.ext_iff]

theorem mem_getSurrounding_some {x : Coords} {f : Facing} {c : Coords}
    (h : c ∈ getSurrounding x (some f)) : ∃ d : Dir, c = d.offset x := by
  cases f with
  | dir d =>
    simp only [getSurrounding, List.mem_singleton] at h
    exact ⟨d, h⟩
  | dirs l =>
    simp only [getSurrounding, List.mem_map] at h
    obtain ⟨d, _, hd⟩ := h
    exact ⟨d, hd.symm⟩

theorem getD_mem {l : List Coords} (h : l ≠ []) (i : Nat) :
    l.getD (i % l.length) (0, 0, 0) ∈ l := by
  have hpos : 0 < l.length := List.length_pos.mpr h
  have hlt : i % l.length < l.length := Nat.mod_lt _ hpos
  rw [List.getD_eq_getElem?_getD, List.getElem?_eq_getElem hlt]
  simp only [Option.getD_some]
  exact List.getElem_mem hlt

theorem wireVisit_fst_tick (me : Block) (a : EState × Int) (c : Coords) :
    ((wireVisit me a c).1).tick = a.1.tick := by
  simp only [wireVisit]
  split_ifs <;> rfl

theorem wireVisit_fst_buffer (me : Block) (a : EState × Int) (c : Coords) :
    ((wireVisit me a c).1).buffer = a.1.buffer ∨
    (((wireVisit me a c).1).buffer = a.1.buffer.insert c ∧
      ∃ bc, lookupB a.1.blocks c = some bc ∧ bc.bid ≠ BlockId.air ∧
        bc.last_updated ≤ me.last_updated) := by
  cases h : lookupB a.1.blocks c with
  | none =>
    simp only [wireVisit, getBlock, h]
    split_ifs with h1 h2 h3
    · exact absurd h2.2 (by simp [airBlockAt])
    · exact Or.inl rfl
    · exact absurd h3.2 (by simp [airBlockAt])
    · exact Or.inl rfl
  | some bc =>
    simp only [wireVisit, getBlock, h]
    split_ifs with h1 h2 h3
    · exact Or.inr ⟨rfl, bc, rfl, h2.2, h2.1⟩
    · exact Or.inl rfl
    · exact Or.inr ⟨rfl, bc, rfl, h3.2, h3.1⟩
    · exact Or.inl rfl

theorem wireVisit_buffer_super (me : Block) (a : EState × Int) (c : Coords) :
    ∀ x ∈ a.1.buffer, x ∈ ((wireVisit me a c).1).buffer := by
  intro x hx
  rcases wireVisit_fst_buffer me a c with h | ⟨h, _⟩
  · rw [h]; exact hx
  · rw [h]; exact List.mem_insert_of_mem hx

theorem wireVisit_buffer_nodup (me : Block) (a : EState × Int) (c : Coords)
    (hnd : a.1.buffer.Nodup) : ((wireVisit me a c).1).buffer.Nodup := by
  rcases wireVisit_fst_buffer me a c with h | ⟨h, _⟩
  · rw [h]; exact hnd
  · rw [h]; exact nodup_insert_coords hnd

theorem wireVisit_buffer_mem (me : Block) (a : EState × Int) (c k : Coords)
    (hk : k ∈ ((wireVisit me a c).1).buffer) :
    k ∈ a.1.buffer ∨ (k = c ∧ ∃ bc, lookupB a.1.blocks c = some bc ∧
      bc.bid ≠ BlockId.air ∧ bc.last_updated ≤ me.last_updated) := by
  rcases wireVisit_fst_buffer me a c with h | ⟨h, hf⟩
  · rw [h] at hk; exact Or.inl hk
  · rw [h] at hk
    rcases List.mem_insert_iff.mp hk with h1 | h1
    · exact Or.inr ⟨h1, hf⟩
    · exact Or.inl h1

theorem wireFold_fst_blocks (me : Block) :
    ∀ (cs : List Coords) (a : EState × Int),
    ((cs.foldl (wireVisit me) a).1).blocks = a.1.blocks := by
  intro cs
  induction cs with
  | nil => intro a; rfl
  | cons c cs ih =>
    intro a
    simp only [List.foldl_cons]
    rw [ih, wireVisit_fst_blocks]

theorem wireFold_fst_tick (me : Block) :
    ∀ (cs : List Coords) (a : EState × Int),
    ((cs.foldl (wireVisit me) a).1).tick = a.1.tick := by
  intro cs
  induction cs with
  | nil => intro a; rfl
  | cons c cs ih =>
    intro a
    simp only [List.foldl_cons]
    rw [ih, wireVisit_fst_tick]

theorem wireFold_buffer_super (me : Block) :
    ∀ (cs : List Coords) (a : EState × Int),
    ∀ x ∈ a.1.buffer, x ∈ ((cs.foldl (wireVisit me) a).1).buffer := by
  intro cs
  induction cs with
  | nil => intro a x hx; exact hx
  | cons c cs ih =>
    intro a x hx
    simp only [List.foldl_cons]
    exact ih _ x (wireVisit_buffer_super me a c x hx)

theorem wireFold_buffer_nodup (me : Block) :
    ∀ (cs : List Coords) (a : EState × Int),
    a.1.buffer.Nodup → ((cs.foldl (wireVisit me) a).1).buffer.Nodup := by
  intro cs
  induction cs with
  | nil => intro a h; exact h
  | cons c cs ih =>
    intro a h
    simp only [List.foldl_cons]
    exact ih _ (wireVisit_buffer_nodup me a c h)

theorem wireFold_buffer_mem (me : Block) :
    ∀ (cs : List Coords) (a : EState × Int) (k : Coords),
    k ∈ ((cs.foldl (wireVisit me) a).1).buffer →
    k ∈ a.1.buffer ∨ (k ∈ cs ∧ ∃ bc, lookupB a.1.blocks k = some bc ∧
      bc.bid ≠ BlockId.air ∧ bc.last_updated ≤ me.last_updated) := by
  intro cs
  induction cs with
  | nil => intro a k hk; exact Or.inl hk
  | cons c cs ih =>
    intro a k hk
    simp only [List.foldl_cons] at hk
    rcases ih _ k hk with h1 | ⟨h1, bc, hbc, hair, hlu⟩
    · rcases wireVisit_buffer_mem me a c k h1 with h2 | ⟨h2, bc, hbc, hair, hlu⟩
      · exact Or.inl h2
      · subst h2
        exact Or.inr ⟨List.mem_cons_self _ _, bc, hbc, hair, hlu⟩
    · rw [wireVisit_fst_blocks] at hbc
      exact Or.inr ⟨List.mem_cons_of_mem _ h1, bc, hbc, hair, hlu⟩

theorem wireUpdate_blocks (st : EState) (b : Block) :
    ((wireUpdate st b).2.1).blocks = st.blocks := by
  cases hf : b.state.facing with
  | none => simp [wireUpdate, hf]
  | some f =>
    rw [wireUpdate_some st b f hf]
    simp only [wireGo]
    exact wireFold_fst_blocks b _ (st, 0)

theorem wireUpdate_tick (st : EState) (b : Block) :
    ((wireUpdate st b).2.1).tick = st.tick := by
  cases hf : b.state.facing with
  | none => simp [wireUpdate, hf]
  | some f =>
    rw [wireUpdate_some st b f hf]
    simp only [wireGo]
    exact wireFold_fst_tick b _ (st, 0)

theorem wireUpdate_buffer_super (st : EState) (b : Block) :
    ∀ x ∈ st.buffer, x ∈ ((wireUpdate st b).2.1).buffer := by
  intro x hx
  cases hf : b.state.facing with
  | none => simpa [wireUpdate, hf] using hx
  | some f =>
    rw [wireUpdate_some st b f hf]
    simp only [wireGo]
    exact wireFold_buffer_super b _ (st, 0) x hx

theorem wireUpdate_buffer_nodup (st : EState) (b : Block) (hnd : st.buffer.Nodup) :
    ((wireUpdate st b).2.1).buffer.Nodup := by
  cases hf : b.state.facing with
  | none => simpa [wireUpdate, hf] using hnd
  | some f =>
    rw [wireUpdate_some st b f hf]
    simp only [wireGo]
    exact wireFold_buffer_nodup b _ (st, 0) hnd

theorem wireUpdate_buffer_mem (st : EState) (b : Block) (k : Coords)
    (hk : k ∈ ((wireUpdate st b).2.1).buffer) :
    k ∈ st.buffer ∨ ((∃ d : Dir, k = d.offset b.coords) ∧
      ∃ bc, lookupB st.blocks k = some bc ∧ bc.bid ≠ BlockId.air ∧
        bc.last_updated ≤ b.last_updated) := by
  cases hf : b.state.facing with
  | none =>
    rw [show ((wireUpdate st b).2.1) = st by simp [wireUpdate, hf]] at hk
    exact Or.inl hk
  | some f =>
    rw [wireUpdate_some st b f hf] at hk
    simp only [wireGo] at hk
    rcases wireFold_buffer_mem b _ (st, 0) k hk with h | ⟨hkc, bc, hbc, hair, hlu⟩
    · exact Or.inl h
    · exact Or.inr ⟨mem_getSurrounding_some hkc, bc, hbc, hair, hlu⟩

theorem wireUpdate_mark (st : EState) (b : Block)
    (hok : (wireUpdate st b).2.2 = none) :
    ((wireUpdate st b).1).last_updated = st.tick := by
  cases hf : b.state.facing with
  | none => simp [wireUpdate, hf] at hok
  | some f =>
    rw [wireUpdate_some st b f hf]
    rfl

theorem wireUpdate_coords (st : EState) (b : Block) :
    ((wireUpdate st b).1).coords = b.coords := by
  cases hf : b.state.facing with
  | none => simp [wireUpdate, hf]
  | some f =>
    rw [wireUpdate_some st b f hf]
    rfl

theorem wireUpdate_bid (st : EState) (b : Block) :
    ((wireUpdate st b).1).bid = b.bid := by
  cases hf : b.state.facing with
  | none => simp [wireUpdate, hf]
  | some f =>
    rw [wireUpdate_some st b f hf]
    rfl

theorem powerVisit_tick (t : Int) (a : EState) (c : Coords) :
    (powerVisit t a c).tick = a.tick := by
  simp only [powerVisit]
  split_ifs <;> rfl

theorem powerVisit_buffer_super (t : Int) (a : EState) (c : Coords) :
    ∀ x ∈ a.buffer, x ∈ (powerVisit t a c).buffer := by
  intro x hx
  simp only [powerVisit]
  split_ifs
  · exact List.mem_insert_of_mem hx
  · exact hx

theorem powerVisit_buffer_nodup (t : Int) (a : EState) (c : Coords)
    (hnd : a.buffer.Nodup) : (powerVisit t a c).buffer.Nodup := by
  simp only [powerVisit]
  split_ifs
  · exact nodup_insert_coords hnd
  · exact hnd

theorem powerFold_blocks (t : Int) :
    ∀ (cs : List Coords) (a : EState), ((cs.foldl (powerVisit t) a)).blocks = a.blocks := by
  intro cs
  induction cs with
  | nil => intro a; rfl
  | cons c cs ih =>
    intro a
    simp only [List.foldl_cons]
    rw [ih, powerVisit_blocks]

theorem powerFold_tick (t : Int) :
    ∀ (cs : List Coords) (a : EState), ((cs.foldl (powerVisit t) a)).tick = a.tick := by
  intro cs
  induction cs with
  | nil => intro a; rfl
  | cons c cs ih =>
    intro a
    simp only [List.foldl_cons]
    rw [ih, powerVisit_tick]

theorem powerFold_buffer_super (t : Int) :
    ∀ (cs : List Coords) (a : EState), ∀ x ∈ a.buffer, x ∈ ((cs.foldl (powerVisit t) a)).buffer := by
  intro cs
  induction cs with
  | nil => intro a x hx; exact hx
  | cons c cs ih =>
    intro a x hx
    simp only [List.foldl_cons]
    exact ih _ x (powerVisit_buffer_super t a c x hx)

theorem powerFold_buffer_nodup (t : Int) :
    ∀ (cs : List Coords) (a : EState), a.buffer.Nodup → ((cs.foldl (powerVisit t) a)).buffer.Nodup := by
  intro cs
  induction cs with
  | nil => intro a h; exact h
  | cons c cs ih =>
    intro a h
    simp only [List.foldl_cons]
    exact ih _ (powerVisit_buffer_nodup t a c h)

theorem powerUpdate_blocks (st : EState) (b : Block) :
    ((powerUpdate st b).2.1).blocks = st.blocks :=
  powerFold_blocks st.tick _ st

theorem powerUpdate_tick (st : EState) (b : Block) :
    ((powerUpdate st b).2.1).tick = st.tick :=
  powerFold_tick st.tick _ st

theorem powerUpdate_buffer_super (st : EState) (b : Block) :
    ∀ x ∈ st.buffer, x ∈ ((powerUpdate st b).2.1).buffer :=
  powerFold_buffer_super st.tick _ st

theorem powerUpdate_buffer_nodup (st : EState) (b : Block) (hnd : st.buffer.Nodup) :
    ((powerUpdate st b).2.1).buffer.Nodup :=
  powerFold_buffer_nodup st.tick _ st hnd

theorem powerUpdate_buffer_mem (st : EState) (b : Block) (k : Coords)
    (hk : k ∈ ((powerUpdate st b).2.1).buffer) :
    k ∈ st.buffer ∨ ((∃ d : Dir, k = d.offset b.coords) ∧
      ∃ bc, lookupB st.blocks k = some bc ∧ bc.bid ≠ BlockId.air ∧
        bc.last_updated ≠ st.tick) := by
  have h := (powerFold_mem st.tick (getSurrounding b.coords none) st k).mp hk
  rcases h with h | ⟨hcs, hfacts⟩
  · exact Or.inl h
  · exact Or.inr ⟨(mem_getSurrounding_all b.coords k).mp hcs, hfacts⟩

theorem delayerFinish_blocks (st : EState) (tick0 : Int) (b2 : Block) (inC outC : Coords) (inB outB : Block) :
    ((delayerFinish st tick0 b2 inC outC inB outB).2.1).blocks = st.blocks := by
  simp only [delayerFinish, schedule]
  split_ifs <;> rfl

theorem delayerFinish_tick (st : EState) (tick0 : Int) (b2 : Block) (inC outC : Coords) (inB outB : Block) :
    ((delayerFinish st tick0 b2 inC outC inB outB).2.1).tick = st.tick := by
  simp only [delayerFinish, schedule]
  split_ifs <;> rfl

theorem delayerFinish_fst (st : EState) (tick0 : Int) (b2 : Block) (inC outC : Coords) (inB outB : Block) :
    (delayerFinish st tick0 b2 inC outC inB outB).1 = { b2 with last_updated := tick0 } := rfl

theorem delayerFinish_err (st : EState) (tick0 : Int) (b2 : Block) (inC outC : Coords) (inB outB : Block) :
    (delayerFinish st tick0 b2 inC outC inB outB).2.2 = none := rfl

theorem delayerFinish_buffer_super (st : EState) (tick0 : Int) (b2 : Block) (inC outC : Coords) (inB outB : Block) :
    ∀ x ∈ st.buffer, x ∈ ((delayerFinish st tick0 b2 inC outC inB outB).2.1).buffer := by
  intro x hx
  simp only [delayerFinish, schedule]
  split_ifs
  · exact List.mem_insert_of_mem (List.mem_insert_of_mem hx)
  · exact List.mem_insert_of_mem hx
  · exact List.mem_insert_of_mem hx
  · exact hx

theorem delayerFinish_buffer_nodup (st : EState) (tick0 : Int) (b2 : Block) (inC outC : Coords) (inB outB : Block)
    (hnd : st.buffer.Nodup) :
    ((delayerFinish st tick0 b2 inC outC inB outB).2.1).buffer.Nodup := by
  simp only [delayerFinish, schedule]
  split_ifs
  · exact nodup_insert_coords (nodup_insert_coords hnd)
  · exact nodup_insert_coords hnd
  · exact nodup_insert_coords hnd
  · exact hnd

theorem delayerFinish_buffer_mem (st : EState) (tick0 : Int) (b2 : Block) (inC outC : Coords) (inB outB : Block)
    (k : Coords) (hk : k ∈ ((delayerFinish st tick0 b2 inC outC inB outB).2.1).buffer) :
    k ∈ st.buffer ∨
      (k = inC ∧ inB.last_updated ≠ tick0 ∧ inB.bid ≠ BlockId.air) ∨
      (k = outC ∧ outB.last_updated ≠ tick0 ∧ outB.bid ≠ BlockId.air) := by
  simp only [delayerFinish, schedule] at hk
  split_ifs at hk with h1 h2 h3
  · rcases List.mem_insert_iff.mp hk with h | hk2
    · exact Or.inr (Or.inr ⟨h, h1⟩)
    · rcases List.mem_insert_iff.mp hk2 with h | h
      · exact Or.inr (Or.inl ⟨h, h2⟩)
      · exact Or.inl h
  · rcases List.mem_insert_iff.mp hk with h | h
    · exact Or.inr (Or.inr ⟨h, h1⟩)
    · exact Or.inl h
  · rcases List.mem_insert_iff.mp hk with h | h
    · exact Or.inr (Or.inl ⟨h, h3⟩)
    · exact Or.inl h
  · exact Or.inl hk

theorem delayerTimer_blocks (st : EState) (tick0 : Int) (b : Block) (v : Int) (inC outC : Coords) (inB outB : Block) :
    ((delayerTimer st tick0 b v inC outC inB outB).2.1).blocks = st.blocks :=
  delayerFinish_blocks st tick0 _ inC outC inB outB

theorem delayerTimer_tick (st : EState) (tick0 : Int) (b : Block) (v : Int) (inC outC : Coords) (inB outB : Block) :
    ((delayerTimer st tick0 b v inC outC inB outB).2.1).tick = st.tick :=
  delayerFinish_tick st tick0 _ inC outC inB outB

theorem delayerTimer_err (st : EState) (tick0 : Int) (b : Block) (v : Int) (inC outC : Coords) (inB outB : Block) :
    (delayerTimer st tick0 b v inC outC inB outB).2.2 = none :=
  delayerFinish_err st tick0 _ inC outC inB outB

theorem delayerTimer_lu (st : EState) (tick0 : Int) (b : Block) (v : Int) (inC outC : Coords) (inB outB : Block) :
    ((delayerTimer st tick0 b v inC outC inB outB).1).last_updated = tick0 := by
  simp only [delayerTimer, delayerFinish]

theorem delayerTimer_coords (st : EState) (tick0 : Int) (b : Block) (v : Int) (inC outC : Coords) (inB outB : Block) :
    ((delayerTimer st tick0 b v inC outC inB outB).1).coords = b.coords := by
  simp only [delayerTimer, delayerFinish]
  split_ifs <;> rfl

theorem delayerTimer_bid (st : EState) (tick0 : Int) (b : Block) (v : Int) (inC outC : Coords) (inB outB : Block) :
    ((delayerTimer st tick0 b v inC outC inB outB).1).bid = b.bid := by
  simp only [delayerTimer, delayerFinish]
  split_ifs <;> rfl

theorem delayerTimer_buffer_super (st : EState) (tick0 : Int) (b : Block) (v : Int) (inC outC : Coords) (inB outB : Block) :
    ∀ x ∈ st.buffer, x ∈ ((delayerTimer st tick0 b v inC outC inB outB).2.1).buffer :=
  delayerFinish_buffer_super st tick0 _ inC outC inB outB

theorem delayerTimer_buffer_nodup (st : EState) (tick0 : Int) (b : Block) (v : Int) (inC outC : Coords) (inB outB : Block)
    (hnd : st.buffer.Nodup) :
    ((delayerTimer st tick0 b v inC outC inB outB).2.1).buffer.Nodup :=
  delayerFinish_buffer_nodup st tick0 _ inC outC inB outB hnd

theorem delayerTimer_buffer_mem (st : EState) (tick0 : Int) (b : Block) (v : Int) (inC outC : Coords) (inB outB : Block)
    (k : Coords) (hk : k ∈ ((delayerTimer st tick0 b v inC outC inB outB).2.1).buffer) :
    k ∈ st.buffer ∨
      (k = inC ∧ inB.last_updated ≠ tick0 ∧ inB.bid ≠ BlockId.air) ∨
      (k = outC ∧ outB.last_updated ≠ tick0 ∧ outB.bid ≠ BlockId.air) :=
  delayerFinish_buffer_mem st tick0 _ inC outC inB outB k hk

theorem getBlock_fst_some {st : EState} {c : Coords} {bc : Block}
    (h : lookupB st.blocks c = some bc) : (getBlock st c).1 = bc := by
  simp [getBlock, h]

theorem getBlock_fst_none {st : EState} {c : Coords}
    (h : lookupB st.blocks c = none) : (getBlock st c).1 = airBlockAt st c := by
  simp [getBlock, h]

theorem delayer_neighbor_sched (st stx : EState) (hblocks : stx.blocks = st.blocks)
    {c k : Coords} {b : Block} (d : Dir)
    (hk : k = c) (hc : c = d.offset b.coords)
    (hlu : ((getBlock stx c).1).last_updated ≠ st.tick)
    (hair : ((getBlock stx c).1).bid ≠ BlockId.air) :
    (∃ d : Dir, k = d.offset b.coords) ∧
      ∃ bc, lookupB st.blocks k = some bc ∧ bc.bid ≠ BlockId.air ∧
        bc.last_updated ≠ st.tick := by
  subst hk
  cases hl : lookupB stx.blocks k with
  | none => exact absurd (by rw [getBlock_fst_none hl]; simp [airBlockAt]) hair
  | some bc =>
    rw [getBlock_fst_some hl] at hlu hair
    rw [hblocks] at hl
    exact ⟨⟨d, hc⟩, bc, hl, hair, hlu⟩

theorem delayerGo_blocks (st : EState) (b : Block) (f : Dir) :
    ((delayerGo st b f).2.1).blocks = st.blocks := by
  simp only [delayerGo]
  split_ifs with h1 h2 h3
  · rfl
  · exact delayerTimer_blocks _ _ _ _ _ _ _ _
  · cases hdl : b.state.delay with
    | some dl => exact delayerTimer_blocks _ _ _ _ _ _ _ _
    | none => rfl
  · exact delayerFinish_blocks _ _ _ _ _ _ _

theorem delayerGo_tick (st : EState) (b : Block) (f : Dir) :
    ((delayerGo st b f).2.1).tick = st.tick := by
  simp only [delayerGo]
  split_ifs with h1 h2 h3
  · rfl
  · exact delayerTimer_tick _ _ _ _ _ _ _ _
  · cases hdl : b.state.delay with
    | some dl => exact delayerTimer_tick _ _ _ _ _ _ _ _
    | none => rfl
  · exact delayerFinish_tick _ _ _ _ _ _ _

theorem delayerGo_buffer_super (st : EState) (b : Block) (f : Dir) :
    ∀ x ∈ st.buffer, x ∈ ((delayerGo st b f).2.1).buffer := by
  intro x hx
  simp only [delayerGo]
  split_ifs with h1 h2 h3
  · exact hx
  · exact delayerTimer_buffer_super _ _ _ _ _ _ _ _ x hx
  · cases hdl : b.state.delay with
    | some dl => exact delayerTimer_buffer_super _ _ _ _ _ _ _ _ x hx
    | none => exact hx
  · exact delayerFinish_buffer_super _ _ _ _ _ _ _ x hx

theorem delayerGo_buffer_nodup (st : EState) (b : Block) (f : Dir)
    (hnd : st.buffer.Nodup) : ((delayerGo st b f).2.1).buffer.Nodup := by
  simp only [delayerGo]
  split_ifs with h1 h2 h3
  · exact hnd
  · exact delayerTimer_buffer_nodup _ _ _ _ _ _ _ _ hnd
  · cases hdl : b.state.delay with
    | some dl => exact delayerTimer_buffer_nodup _ _ _ _ _ _ _ _ hnd
    | none => exact hnd
  · exact delayerFinish_buffer_nodup _ _ _ _ _ _ _ hnd

theorem delayerGo_buffer_mem (st : EState) (b : Block) (f : Dir) (k : Coords)
    (hk : k ∈ ((delayerGo st b f).2.1).buffer) :
    k ∈ st.buffer ∨ ((∃ d : Dir, k = d.offset b.coords) ∧
      ∃ bc, lookupB st.blocks k = some bc ∧ bc.bid ≠ BlockId.air ∧
        bc.last_updated ≠ st.tick) := by
  simp only [delayerGo] at hk
  split_ifs at hk with h1 h2 h3
  · exact Or.inl hk
  · rcases delayerTimer_buffer_mem _ _ _ _ _ _ _ _ k hk with h | ⟨hkc, hlu, hair⟩ | ⟨hkc, hlu, hair⟩
    · exact Or.inl h
    · exact Or.inr (delayer_neighbor_sched st st rfl f hkc rfl hlu hair)
    · exact Or.inr (delayer_neighbor_sched st ((getBlock st (f.offset b.coords)).2) rfl f.opposite hkc rfl hlu hair)
  · cases hdl : b.state.delay with
    | some dl =>
      rw [hdl] at hk
      rcases delayerTimer_buffer_mem _ _ _ _ _ _ _ _ k hk with h | ⟨hkc, hlu, hair⟩ | ⟨hkc, hlu, hair⟩
      · exact Or.inl h
      · exact Or.inr (delayer_neighbor_sched st st rfl f hkc rfl hlu hair)
      · exact Or.inr (delayer_neighbor_sched st ((getBlock st (f.offset b.coords)).2) rfl f.opposite hkc rfl hlu hair)
    | none =>
      rw [hdl] at hk
      exact Or.inl hk
  · rcases delayerFinish_buffer_mem _ _ _ _ _ _ _ k hk with h | ⟨hkc, hlu, hair⟩ | ⟨hkc, hlu, hair⟩
    · exact Or.inl h
    · exact Or.inr (delayer_neighbor_sched st st rfl f hkc rfl hlu hair)
    · exact Or.inr (delayer_neighbor_sched st ((getBlock st (f.offset b.coords)).2) rfl f.opposite hkc rfl hlu hair)

theorem delayerGo_mark_or_err (st : EState) (b : Block) (f : Dir) :
    ((delayerGo st b f).1).last_updated = st.tick ∨
      (∃ e, (delayerGo st b f).2.2 = some e) := by
  simp only [delayerGo]
  split_ifs with h1 h2 h3
  · exact Or.inr ⟨PyErr.typeError, rfl⟩
  · exact Or.inl (delayerTimer_lu _ _ _ _ _ _ _ _)
  · cases hdl : b.state.delay with
    | some dl => exact Or.inl (delayerTimer_lu _ _ _ _ _ _ _ _)
    | none => exact Or.inr ⟨PyErr.keyError, rfl⟩
  · exact Or.inl rfl

theorem delayerGo_mark (st : EState) (b : Block) (f : Dir)
    (hok : (delayerGo st b f).2.2 = none) :
    ((delayerGo st b f).1).last_updated = st.tick := by
  rcases delayerGo_mark_or_err st b f with h | ⟨e, he⟩
  · exact h
  · rw [he] at hok
    simp at hok

theorem delayerGo_coords (st : EState) (b : Block) (f : Dir) :
    ((delayerGo st b f).1).coords = b.coords := by
  simp only [delayerGo]
  split_ifs with h1 h2 h3
  · rfl
  · exact delayerTimer_coords _ _ _ _ _ _ _ _
  · cases hdl : b.state.delay with
    | some dl => exact delayerTimer_coords _ _ _ _ _ _ _ _
    | none => rfl
  · rfl

theorem delayerGo_bid (st : EState) (b : Block) (f : Dir) :
    ((delayerGo st b f).1).bid = b.bid := by
  simp only [delayerGo]
  split_ifs with h1 h2 h3
  · rfl
  · exact delayerTimer_bid _ _ _ _ _ _ _ _
  · cases hdl : b.state.delay with
    | some dl => exact delayerTimer_bid _ _ _ _ _ _ _ _
    | none => rfl
  · rfl

theorem delayerUpdate_dirCase (st : EState) (b : Block) (f : Dir)
    (hf : b.state.facing = some (Facing.dir f)) :
    delayerUpdate st b = delayerGo st b f := by
  unfold delayerUpdate
  rw [hf]

theorem delayerUpdate_blocks (st : EState) (b : Block) :
    ((delayerUpdate st b).2.1).blocks = st.blocks := by
  cases hf : b.state.facing with
  | none => simp [delayerUpdate, hf]
  | some ff =>
    cases ff with
    | dir f =>
      rw [delayerUpdate_dirCase st b f hf]
      exact delayerGo_blocks st b f
    | dirs l => simp [delayerUpdate, hf]

theorem delayerUpdate_tick (st : EState) (b : Block) :
    ((delayerUpdate st b).2.1).tick = st.tick := by
  cases hf : b.state.facing with
  | none => simp [delayerUpdate, hf]
  | some ff =>
    cases ff with
    | dir f =>
      rw [delayerUpdate_dirCase st b f hf]
      exact delayerGo_tick st b f
    | dirs l => simp [delayerUpdate, hf]

theorem delayerUpdate_buffer_super (st : EState) (b : Block) :
    ∀ x ∈ st.buffer, x ∈ ((delayerUpdate st b).2.1).buffer := by
  intro x hx
  cases hf : b.state.facing with
  | none => simpa [delayerUpdate, hf] using hx
  | some ff =>
    cases ff with
    | dir f =>
      rw [delayerUpdate_dirCase st b f hf]
      exact delayerGo_buffer_super st b f x hx
    | dirs l => simpa [delayerUpdate, hf] using hx

theorem delayerUpdate_buffer_nodup (st : EState) (b : Block) (hnd : st.buffer.Nodup) :
    ((delayerUpdate st b).2.1).buffer.Nodup := by
  cases hf : b.state.facing with
  | none => simpa [delayerUpdate, hf] using hnd
  | some ff =>
    cases ff with
    | dir f =>
      rw [delayerUpdate_dirCase st b f hf]
      exact delayerGo_buffer_nodup st b f hnd
    | dirs l => simpa [delayerUpdate, hf] using hnd

theorem delayerUpdate_buffer_mem (st : EState) (b : Block) (k : Coords)
    (hk : k ∈ ((delayerUpdate st b).2.1).buffer) :
    k ∈ st.buffer ∨ ((∃ d : Dir, k = d.offset b.coords) ∧
      ∃ bc, lookupB st.blocks k = some bc ∧ bc.bid ≠ BlockId.air ∧
        bc.last_updated ≠ st.tick) := by
  cases hf : b.state.facing with
  | none =>
    rw [show delayerUpdate st b = (b, st, some PyErr.keyError) by
      unfold delayerUpdate; rw [hf]] at hk
    exact Or.inl hk
  | some ff =>
    cases ff with
    | dir f =>
      rw [delayerUpdate_dirCase st b f hf] at hk
      exact delayerGo_buffer_mem st b f k hk
    | dirs l =>
      rw [show delayerUpdate st b = (b, st, some PyErr.typeError) by
        unfold delayerUpdate; rw [hf]] at hk
      exact Or.inl hk

theorem delayerUpdate_mark (st : EState) (b : Block)
    (hok : (delayerUpdate st b).2.2 = none) :
    ((delayerUpdate st b).1).last_updated = st.tick := by
  cases hf : b.state.facing with
  | none =>
    rw [show delayerUpdate st b = (b, st, some PyErr.keyError) by
      unfold delayerUpdate; rw [hf]] at hok
    simp at hok
  | some ff =>
    cases ff with
    | dir f =>
      rw [delayerUpdate_dirCase st b f hf] at hok ⊢
      exact delayerGo_mark st b f hok
    | dirs l =>
      rw [show delayerUpdate st b = (b, st, some PyErr.typeError) by
        unfold delayerUpdate; rw [hf]] at hok
      simp at hok

theorem delayerUpdate_coords (st : EState) (b : Block) :
    ((delayerUpdate st b).1).coords = b.coords := by
  cases hf : b.state.facing with
  | none => simp [delayerUpdate, hf]
  | some ff =>
    cases ff with
    | dir f =>
      rw [delayerUpdate_dirCase st b f hf]
      exact delayerGo_coords st b f
    | dirs l => simp [delayerUpdate, hf]

theorem delayerUpdate_bid (st : EState) (b : Block) :
    ((delayerUpdate st b).1).bid = b.bid := by
  cases hf : b.state.facing with
  | none => simp [delayerUpdate, hf]
  | some ff =>
    cases ff with
    | dir f =>
      rw [delayerUpdate_dirCase st b f hf]
      exact delayerGo_bid st b f
    | dirs l => simp [delayerUpdate, hf]

theorem updateBlock_air (st : EState) (b : Block) (h : b.bid = BlockId.air) :
    updateBlock st b = (b, st, none) := by
  simp [updateBlock, h]

theorem updateBlock_blocks (st : EState) (b : Block) :
    ((updateBlock st b).2.1).blocks = st.blocks := by
  cases hb : b.bid
  · simp [updateBlock, hb]
  · simp only [updateBlock, hb]
    exact wireUpdate_blocks st b
  · simp only [updateBlock, hb]
    exact powerUpdate_blocks st b
  · simp only [updateBlock, hb]
    exact delayerUpdate_blocks st b

theorem updateBlock_tick (st : EState) (b : Block) :
    ((updateBlock st b).2.1).tick = st.tick := by
  cases hb : b.bid
  · simp [updateBlock, hb]
  · simp only [updateBlock, hb]
    exact wireUpdate_tick st b
  · simp only [updateBlock, hb]
    exact powerUpdate_tick st b
  · simp only [updateBlock, hb]
    exact delayerUpdate_tick st b

theorem updateBlock_buffer_super (st : EState) (b : Block) :
    ∀ x ∈ st.buffer, x ∈ ((updateBlock st b).2.1).buffer := by
  intro x hx
  cases hb : b.bid
  · simpa [updateBlock, hb] using hx
  · simp only [updateBlock, hb]
    exact wireUpdate_buffer_super st b x hx
  · simp only [updateBlock, hb]
    exact powerUpdate_buffer_super st b x hx
  · simp only [updateBlock, hb]
    exact delayerUpdate_buffer_super st b x hx

theorem updateBlock_buffer_nodup (st : EState) (b : Block) (hnd : st.buffer.Nodup) :
    ((updateBlock st b).2.1).buffer.Nodup := by
  cases hb : b.bid
  · simpa [updateBlock, hb] using hnd
  · simp only [updateBlock, hb]
    exact wireUpdate_buffer_nodup st b hnd
  · simp only [updateBlock, hb]
    exact powerUpdate_buffer_nodup st b hnd
  · simp only [updateBlock, hb]
    exact delayerUpdate_buffer_nodup st b hnd

theorem updateBlock_buffer_mem (st : EState) (b : Block) (k : Coords)
    (hk : k ∈ ((updateBlock st b).2.1).buffer) :
    k ∈ st.buffer ∨ ((∃ d : Dir, k = d.offset b.coords) ∧
      ∃ bc, lookupB st.blocks k = some bc ∧ bc.bid ≠ BlockId.air ∧
        (bc.last_updated ≤ b.last_updated ∨ bc.last_updated ≠ st.tick)) := by
  cases hb : b.bid
  · rw [updateBlock_air st b hb] at hk
    exact Or.inl hk
  · simp only [updateBlock, hb] at hk
    rcases wireUpdate_buffer_mem st b k hk with h | ⟨hd, bc, h1, h2, h3⟩
    · exact Or.inl h
    · exact Or.inr ⟨hd, bc, h1, h2, Or.inl h3⟩
  · simp only [updateBlock, hb] at hk
    rcases powerUpdate_buffer_mem st b k hk with h | ⟨hd, bc, h1, h2, h3⟩
    · exact Or.inl h
    · exact Or.inr ⟨hd, bc, h1, h2, Or.inr h3⟩
  · simp only [updateBlock, hb] at hk
    rcases delayerUpdate_buffer_mem st b k hk with h | ⟨hd, bc, h1, h2, h3⟩
    · exact Or.inl h
    · exact Or.inr ⟨hd, bc, h1, h2, Or.inr h3⟩

theorem updateBlock_mark (st : EState) (b : Block) (hair : b.bid ≠ BlockId.air)
    (hok : (updateBlock st b).2.2 = none) :
    ((updateBlock st b).1).last_updated = st.tick := by
  cases hb : b.bid
  · exact absurd hb hair
  · simp only [updateBlock, hb] at hok ⊢
    exact wireUpdate_mark st b hok
  · simp only [updateBlock, hb]
    rfl
  · simp only [updateBlock, hb] at hok ⊢
    exact delayerUpdate_mark st b hok

theorem updateBlock_coords (st : EState) (b : Block) :
    ((updateBlock st b).1).coords = b.coords := by
  cases hb : b.bid
  · simp [updateBlock, hb]
  · simp only [updateBlock, hb]
    exact wireUpdate_coords st b
  · simp only [updateBlock, hb]
    rfl
  · simp only [updateBlock, hb]
    exact delayerUpdate_coords st b

theorem updateBlock_bid (st : EState) (b : Block) :
    ((updateBlock st b).1).bid = b.bid := by
  cases hb : b.bid
  · simp [updateBlock, hb]
  · simp only [updateBlock, hb]
    rw [wireUpdate_bid st b, hb]
  · simp only [updateBlock, hb]
    rw [show ((powerUpdate st b).1).bid = b.bid from rfl, hb]
  · simp only [updateBlock, hb]
    rw [delayerUpdate_bid st b, hb]

theorem tickLoop_zero (oracle : Nat → Nat) (n : Nat) (phase : Bool) (rest : List Coords)
    (st : EState) (tr : List Coords) :
    tickLoop oracle 0 n phase rest st tr = none := rfl

theorem tickLoop_scan_nil (oracle : Nat → Nat) (fuel n : Nat) (st : EState) (tr : List Coords) :
    tickLoop oracle (fuel + 1) n false [] st tr =
      some (TickRes.done { st with tick := st.tick + 1 } tr) := rfl

theorem tickLoop_scan_cons_none (oracle : Nat → Nat) (fuel n : Nat) (k : Coords)
    (rest' : List Coords) (st : EState) (tr : List Coords)
    (hk : lookupB st.blocks k = none) :
    tickLoop oracle (fuel + 1) n false (k :: rest') st tr = none := by
  simp only [tickLoop, hk]

theorem tickLoop_scan_cons_skip (oracle : Nat → Nat) (fuel n : Nat) (k : Coords)
    (rest' : List Coords) (st : EState) (tr : List Coords) (b : Block)
    (hk : lookupB st.blocks k = some b) (hmk : b.last_updated = st.tick) :
    tickLoop oracle (fuel + 1) n false (k :: rest') st tr =
      tickLoop oracle fuel n false rest' st tr := by
  simp only [tickLoop, hk, if_pos hmk]

theorem tickLoop_scan_cons_seed (oracle : Nat → Nat) (fuel n : Nat) (k : Coords)
    (rest' : List Coords) (st : EState) (tr : List Coords) (b : Block)
    (hk : lookupB st.blocks k = some b) (hmk : ¬ b.last_updated = st.tick) :
    tickLoop oracle (fuel + 1) n false (k :: rest') st tr =
      tickLoop oracle fuel n true rest' { st with buffer := [k] } tr := by
  simp only [tickLoop, hk, if_neg hmk]

theorem tickLoop_drain_nil (oracle : Nat → Nat) (fuel n : Nat) (rest : List Coords)
    (st : EState) (tr : List Coords) (hb : st.buffer = []) :
    tickLoop oracle (fuel + 1) n true rest st tr =
      tickLoop oracle fuel n false rest st tr := by
  simp only [tickLoop, if_pos hb]

theorem tickLoop_drain_pop_none (oracle : Nat → Nat) (fuel n : Nat) (rest : List Coords)
    (st : EState) (tr : List Coords) (c : Coords)
    (hb : ¬ st.buffer = [])
    (hcval : st.buffer.getD (oracle n % st.buffer.length) (0, 0, 0) = c)
    (hc : lookupB st.blocks c = none) :
    tickLoop oracle (fuel + 1) n true rest st tr = none := by
  simp only [tickLoop, if_neg hb, hcval, hc]

theorem tickLoop_drain_pop_raised (oracle : Nat → Nat) (fuel n : Nat) (rest : List Coords)
    (st : EState) (tr : List Coords) (c : Coords) (b : Block) (e : PyErr)
    (hb : ¬ st.buffer = [])
    (hcval : st.buffer.getD (oracle n % st.buffer.length) (0, 0, 0) = c)
    (hc : lookupB st.blocks c = some b)
    (herr : (updateBlock { st with buffer := st.buffer.erase c } b).2.2 = some e) :
    tickLoop oracle (fuel + 1) n true rest st tr =
      some (TickRes.raised e
        { (updateBlock { st with buffer := st.buffer.erase c } b).2.1 with
          blocks := setB ((updateBlock { st with buffer := st.buffer.erase c } b).2.1).blocks c
            ((updateBlock { st with buffer := st.buffer.erase c } b).1) } (tr ++ [c])) := by
  simp only [tickLoop, if_neg hb, hcval, hc, herr]

theorem tickLoop_drain_pop_ok (oracle : Nat → Nat) (fuel n : Nat) (rest : List Coords)
    (st : EState) (tr : List Coords) (c : Coords) (b : Block)
    (hb : ¬ st.buffer = [])
    (hcval : st.buffer.getD (oracle n % st.buffer.length) (0, 0, 0) = c)
    (hc : lookupB st.blocks c = some b)
    (herr : (updateBlock { st with buffer := st.buffer.erase c } b).2.2 = none) :
    tickLoop oracle (fuel + 1) n true rest st tr =
      tickLoop oracle fuel (n + 1) true rest
        { (updateBlock { st with buffer := st.buffer.erase c } b).2.1 with
          blocks := setB ((updateBlock { st with buffer := st.buffer.erase c } b).2.1).blocks c
            ((updateBlock { st with buffer := st.buffer.erase c } b).1) } (tr ++ [c]) := by
  simp only [tickLoop, if_neg hb, hcval, hc, herr]

theorem deadKey_of_lookup {t : Int} {st : EState} {k : Coords} {b : Block}
    (hk : lookupB st.blocks k = some b)
    (h : b.last_updated = t ∨ b.bid = BlockId.air) : deadKey t st k := by
  intro b2 hb2
  rw [hk] at hb2
  injection hb2 with h2
  exact h2 ▸ h

theorem scan_skip_preserve {t : Int} {keys0 : List Coords} {k : Coords} {rest' : List Coords}
    {st : EState} {tr : List Coords} {b : Block}
    (hinv : ScanInv t keys0 (k :: rest') st tr)
    (hk : lookupB st.blocks k = some b) (hmk : b.last_updated = t) :
    ScanInv t keys0 rest' st tr := by
  obtain ⟨core, alive, trDead⟩ := hinv
  refine ⟨⟨core.tick_eq, core.keys_eq, core.keys_nd, core.coh, core.lu_le,
    fun x hx => core.rest_sub (List.mem_cons_of_mem _ hx),
    (List.nodup_cons.mp core.rest_nd).2, core.tr_cnt⟩, ?_, ?_⟩
  · intro k2 hk2
    rcases alive k2 hk2 with h | h
    · exact Or.inl h
    · rcases List.mem_cons.mp h with h | h
      · subst h
        exact Or.inl (deadKey_of_lookup hk (Or.inl hmk))
      · exact Or.inr h
  · intro c hc b2 hb2
    rcases trDead c hc b2 hb2 with h | ⟨h1, h2⟩
    · exact Or.inl h
    · exact Or.inr ⟨h1, fun hh => h2 (List.mem_cons_of_mem _ hh)⟩

theorem scan_seed_preserve {t : Int} {keys0 : List Coords} {k : Coords} {rest' : List Coords}
    {st : EState} {tr : List Coords} {b : Block}
    (hinv : ScanInv t keys0 (k :: rest') st tr)
    (hk : lookupB st.blocks k = some b) (hmk : b.last_updated ≠ t) :
    DrainInv t keys0 rest' { st with buffer := [k] } tr := by
  obtain ⟨core, alive, trDead⟩ := hinv
  have hknr : k ∉ rest' := (List.nodup_cons.mp core.rest_nd).1
  refine ⟨⟨core.tick_eq, core.keys_eq, core.keys_nd, core.coh, core.lu_le,
    fun x hx => core.rest_sub (List.mem_cons_of_mem _ hx),
    (List.nodup_cons.mp core.rest_nd).2, core.tr_cnt⟩, ?_, ?_, ?_, ?_, ?_⟩
  · intro k2 hk2
    rcases alive k2 hk2 with h | h
    · exact Or.inl h
    · rcases List.mem_cons.mp h with h | h
      · subst h
        exact Or.inr (Or.inr (List.mem_singleton.mpr rfl))
      · exact Or.inr (Or.inl h)
  · intro c hc b2 hb2
    rcases trDead c hc b2 hb2 with h | ⟨h1, h2⟩
    · exact Or.inl h
    · refine Or.inr ⟨h1, fun hh => h2 (List.mem_cons_of_mem _ hh), ?_⟩
      intro hh
      exact h2 (List.mem_singleton.mp hh ▸ List.mem_cons_self _ _)
  · exact List.nodup_singleton k
  · intro c hc
    rw [List.mem_singleton.mp hc]
    exact ⟨b, hk, hmk⟩
  · intro c hc b2 _ _
    rw [List.mem_singleton.mp hc]
    exact hknr

theorem drain_empty_preserve {t : Int} {keys0 rest : List Coords} {st : EState} {tr : List Coords}
    (hinv : DrainInv t keys0 rest st tr) (hb : st.buffer = []) :
    ScanInv t keys0 rest st tr := by
  obtain ⟨core, alive, trDead, _, _, _⟩ := hinv
  refine ⟨core, ?_, ?_⟩
  · intro k hk
    rcases alive k hk with h | h | h
    · exact Or.inl h
    · exact Or.inr h
    · rw [hb] at h
      simp at h
  · intro c hc b hb2
    rcases trDead c hc b hb2 with h | ⟨h1, h2, _⟩
    · exact Or.inl h
    · exact Or.inr ⟨h1, h2⟩

theorem done_post {t : Int} {keys0 : List Coords} {st : EState} {tr : List Coords}
    (hinv : ScanInv t keys0 [] st tr) :
    (∀ p ∈ st.blocks, p.2.bid ≠ BlockId.air → p.2.last_updated = t) ∧
    (∀ c : Coords, tr.count c ≤ 1) := by
  obtain ⟨core, alive, _⟩ := hinv
  refine ⟨?_, core.tr_cnt⟩
  intro p hp hair
  obtain ⟨c, b⟩ := p
  have hkmem : c ∈ keys0 := by
    rw [← core.keys_eq]
    exact List.mem_map.mpr ⟨(c, b), hp, rfl⟩
  rcases alive c hkmem with h | h
  · have hnd : (st.blocks.map Prod.fst).Nodup := by
      rw [core.keys_eq]
      exact core.keys_nd
    have hl : lookupB st.blocks c = some b := lookupB_of_mem_nodup hnd hp
    rcases h b hl with h2 | h2
    · exact h2
    · exact absurd h2 hair
  · simp at h

theorem drain_pop_preserve {t : Int} {keys0 rest : List Coords} {st : EState} {tr : List Coords}
    {c : Coords} {b : Block}
    (hinv : DrainInv t keys0 rest st tr)
    (hcmem : c ∈ st.buffer)
    (hk : lookupB st.blocks c = some b)
    (hok : (updateBlock { st with buffer := st.buffer.erase c } b).2.2 = none) :
    c ∉ tr ∧
    DrainInv t keys0 rest
      { (updateBlock { st with buffer := st.buffer.erase c } b).2.1 with
        blocks := setB ((updateBlock { st with buffer := st.buffer.erase c } b).2.1).blocks c
          ((updateBlock { st with buffer := st.buffer.erase c } b).1) }
      (tr ++ [c]) := by
  obtain ⟨core, alive, trDead, buf_nd, buf_ok, buf_air⟩ := hinv
  set st0 : EState := { st with buffer := st.buffer.erase c } with hst0
  set b' : Block := (updateBlock st0 b).1 with hbdef
  set st1 : EState := (updateBlock st0 b).2.1 with hst1def
  set st2 : EState := { st1 with blocks := setB st1.blocks c b' } with hst2def
  have hst1blocks : st1.blocks = st.blocks := updateBlock_blocks st0 b
  have hst1tick : st1.tick = st.tick := updateBlock_tick st0 b
  have hst2blocks : st2.blocks = setB st1.blocks c b' := rfl
  have hst2buffer : st2.buffer = st1.buffer := rfl
  have hst2tick : st2.tick = st1.tick := rfl
  have hbcoords : b.coords = c := core.coh (c, b) (lookupB_mem hk)
  have hb'coords : b'.coords = c := by
    rw [hbdef, updateBlock_coords]
    exact hbcoords
  have hb'bid : b'.bid = b.bid := updateBlock_bid st0 b
  have hbun : b.last_updated ≠ t := by
    obtain ⟨b2, hl2, hb2⟩ := buf_ok c hcmem
    rw [hk] at hl2
    injection hl2 with h2
    exact h2 ▸ hb2
  have hble : b.last_updated ≤ t := core.lu_le (c, b) (lookupB_mem hk)
  have hctr : c ∉ tr := by
    intro hc
    rcases trDead c hc b hk with h | ⟨_, _, h⟩
    · exact hbun h
    · exact h hcmem
  have hk1 : lookupB st1.blocks c = some b := by
    rw [hst1blocks]
    exact hk
  have hknew : lookupB (setB st1.blocks c b') c = some b' := lookupB_setB_eq hk1
  have hkeep : ∀ x : Coords, x ≠ c → lookupB (setB st1.blocks c b') x = lookupB st.blocks x := by
    intro x hx
    rw [lookupB_setB_ne hx, hst1blocks]
  have htick0 : st0.tick = t := core.tick_eq
  have hb'fate : b'.last_updated = t ∨ (b.bid = BlockId.air ∧ b' = b) := by
    by_cases hair : b.bid = BlockId.air
    · right
      refine ⟨hair, ?_⟩
      rw [hbdef, updateBlock_air st0 b hair]
    · left
      rw [hbdef, updateBlock_mark st0 b hair hok]
      exact htick0
  have hbufmem : ∀ x ∈ st1.buffer, x ∈ st.buffer.erase c ∨
      (x ≠ c ∧ ∃ bc, lookupB st.blocks x = some bc ∧ bc.bid ≠ BlockId.air ∧
        bc.last_updated ≠ t) := by
    intro x hx
    rcases updateBlock_buffer_mem st0 b x hx with h | ⟨⟨d, hd⟩, bc, hbc, hair2, hlu2⟩
    · exact Or.inl h
    · right
      have hxc : x ≠ c := by
        rw [hd, hbcoords]
        exact offset_ne d c
      refine ⟨hxc, bc, hbc, hair2, ?_⟩
      rcases hlu2 with h2 | h2
      · omega
      · rw [htick0] at h2
        exact h2
  refine ⟨hctr, ⟨?_, ?_, core.keys_nd, ?_, ?_, core.rest_sub, core.rest_nd, ?_⟩, ?_, ?_, ?_, ?_, ?_⟩
  · rw [hst2tick, hst1tick]
    exact core.tick_eq
  · rw [hst2blocks, setB_map_fst, hst1blocks]
    exact core.keys_eq
  · intro p hp
    rw [hst2blocks] at hp
    rcases mem_setB hp with h | ⟨hpl, _⟩
    · rw [h]
      exact hb'coords
    · rw [hst1blocks] at hpl
      exact core.coh p hpl
  · intro p hp
    rw [hst2blocks] at hp
    rcases mem_setB hp with h | ⟨hpl, _⟩
    · rw [h]
      rcases hb'fate with h2 | ⟨_, h2⟩
      · simp [h2]
      · rw [h2]
        exact hble
    · rw [hst1blocks] at hpl
      exact core.lu_le p hpl
  · intro x
    rw [List.count_append]
    by_cases hx : x = c
    · subst hx
      rw [List.count_eq_zero.mpr hctr]
      simp [List.count_singleton_self]
    · have h0 : List.count x [c] = 0 := List.count_eq_zero.mpr (by simp [hx])
      rw [h0]
      have := core.tr_cnt x
      omega
  · intro k2 hk2
    rcases alive k2 hk2 with hdead | hrest | hbuf
    · left
      by_cases hkc : k2 = c
      · subst hkc
        apply deadKey_of_lookup (show lookupB st2.blocks k2 = some b' from hknew)
        rcases hb'fate with h | ⟨hair, hbb⟩
        · exact Or.inl h
        · right
          rw [hb'bid]
          exact hair
      · intro b2 hb2
        rw [show lookupB st2.blocks k2 = lookupB st.blocks k2 from hkeep k2 hkc] at hb2
        exact hdead b2 hb2
    · exact Or.inr (Or.inl hrest)
    · by_cases hkc : k2 = c
      · subst hkc
        left
        apply deadKey_of_lookup (show lookupB st2.blocks k2 = some b' from hknew)
        rcases hb'fate with h | ⟨hair, hbb⟩
        · exact Or.inl h
        · right
          rw [hb'bid]
          exact hair
      · right
        right
        rw [hst2buffer]
        apply updateBlock_buffer_super st0 b
        exact (buf_nd.mem_erase_iff).mpr ⟨hkc, hbuf⟩
  · intro c' hc' b2 hb2
    rcases List.mem_append.mp hc' with hc'tr | hc'c
    · have hcc : c' ≠ c := fun he => hctr (he ▸ hc'tr)
      rw [show lookupB st2.blocks c' = lookupB st.blocks c' from hkeep c' hcc] at hb2
      rcases trDead c' hc'tr b2 hb2 with h | ⟨hair2, hrest2, hbuf2⟩
      · exact Or.inl h
      · right
        refine ⟨hair2, hrest2, ?_⟩
        intro hmem
        rw [hst2buffer] at hmem
        rcases hbufmem c' hmem with h | ⟨_, bc, hbc, hbcair, _⟩
        · exact hbuf2 (List.erase_subset _ _ h)
        · rw [hb2] at hbc
          injection hbc with h3
          exact hbcair (h3 ▸ hair2)
    · have hcc : c' = c := List.mem_singleton.mp hc'c
      subst hcc
      rw [show lookupB st2.blocks c' = some b' from hknew] at hb2
      injection hb2 with h2
      rcases hb'fate with h | ⟨hair, hbb⟩
      · exact Or.inl (by rw [← h2]; exact h)
      · right
        have hb2air : b2.bid = BlockId.air := by
          rw [← h2, hb'bid]
          exact hair
        refine ⟨hb2air, buf_air c' hcmem b hk hair, ?_⟩
        intro hmem
        rw [hst2buffer] at hmem
        rcases hbufmem c' hmem with h | ⟨hne, _⟩
        · exact buf_nd.not_mem_erase h
        · exact hne rfl
  · rw [hst2buffer]
    exact updateBlock_buffer_nodup st0 b (buf_nd.erase c)
  · intro x hx
    rw [hst2buffer] at hx
    rcases hbufmem x hx with h | ⟨hne, bc, hbc, _, hlu⟩
    · obtain ⟨hxc, hxb⟩ := (buf_nd.mem_erase_iff).mp h
      obtain ⟨b2, hl2, hb2⟩ := buf_ok x hxb
      refine ⟨b2, ?_, hb2⟩
      rw [show lookupB st2.blocks x = lookupB st.blocks x from hkeep x hxc]
      exact hl2
    · refine ⟨bc, ?_, hlu⟩
      rw [show lookupB st2.blocks x = lookupB st.blocks x from hkeep x hne]
      exact hbc
  · intro x hx b2 hb2 hair2
    rw [hst2buffer] at hx
    rcases hbufmem x hx with h | ⟨hne, bc, hbc, hbcair, _⟩
    · obtain ⟨hxc, hxb⟩ := (buf_nd.mem_erase_iff).mp h
      rw [show lookupB st2.blocks x = lookupB st.blocks x from hkeep x hxc] at hb2
      exact buf_air x hxb b2 hb2 hair2
    · rw [show lookupB st2.blocks x = lookupB st.blocks x from hkeep x hne] at hb2
      rw [hb2] at hbc
      injection hbc with h3
      exact absurd (h3 ▸ hair2) hbcair

theorem measure_scan_skip (n : Nat) (t : Int) (k : Coords) (rest' : List Coords) (st : EState) :
    loopMeasure n t false rest' st < loopMeasure n t false (k :: rest') st := by
  simp only [loopMeasure, Bool.cond_false, List.length_cons]
  generalize (n + 2) * unmarkedCount t st.blocks = P
  omega

theorem measure_scan_seed (n : Nat) (t : Int) (k : Coords) (rest' : List Coords) (st : EState) :
    loopMeasure n t true rest' { st with buffer := [k] } < loopMeasure n t false (k :: rest') st := by
  have h1 : ({ st with buffer := [k] } : EState).blocks = st.blocks := rfl
  have h2 : ({ st with buffer := [k] } : EState).buffer = [k] := rfl
  simp only [loopMeasure, Bool.cond_true, Bool.cond_false, h1, h2, List.length_cons,
    List.length_nil]
  generalize (n + 2) * unmarkedCount t st.blocks = P
  omega

theorem measure_drain_nil (n : Nat) (t : Int) (rest : List Coords) (st : EState) :
    loopMeasure n t false rest st < loopMeasure n t true rest st := by
  simp only [loopMeasure, Bool.cond_true, Bool.cond_false]
  generalize (n + 2) * unmarkedCount t st.blocks = P
  omega

theorem drain_pop_measure {t : Int} {keys0 rest : List Coords} {st : EState} {tr : List Coords}
    {c : Coords} {b : Block}
    (hinv : DrainInv t keys0 rest st tr)
    (hcmem : c ∈ st.buffer)
    (hk : lookupB st.blocks c = some b)
    (hok : (updateBlock { st with buffer := st.buffer.erase c } b).2.2 = none)
    (hinv2 : DrainInv t keys0 rest
      { (updateBlock { st with buffer := st.buffer.erase c } b).2.1 with
        blocks := setB ((updateBlock { st with buffer := st.buffer.erase c } b).2.1).blocks c
          ((updateBlock { st with buffer := st.buffer.erase c } b).1) } (tr ++ [c])) :
    loopMeasure keys0.length t true rest
      { (updateBlock { st with buffer := st.buffer.erase c } b).2.1 with
        blocks := setB ((updateBlock { st with buffer := st.buffer.erase c } b).2.1).blocks c
          ((updateBlock { st with buffer := st.buffer.erase c } b).1) } <
      loopMeasure keys0.length t true rest st := by
  set st0 : EState := { st with buffer := st.buffer.erase c } with hst0
  set b' : Block := (updateBlock st0 b).1 with hbdef
  set st1 : EState := (updateBlock st0 b).2.1 with hst1def
  set st2 : EState := { st1 with blocks := setB st1.blocks c b' } with hst2def
  have hst1blocks : st1.blocks = st.blocks := updateBlock_blocks st0 b
  have hst2blocks : st2.blocks = setB st1.blocks c b' := rfl
  have hst2buffer : st2.buffer = st1.buffer := rfl
  have hk1 : lookupB st1.blocks c = some b := by
    rw [hst1blocks]
    exact hk
  have hnd1 : (st1.blocks.map Prod.fst).Nodup := by
    rw [hst1blocks, hinv.core.keys_eq]
    exact hinv.core.keys_nd
  have hb2sub : st2.buffer ⊆ keys0 := by
    intro x hx
    obtain ⟨bx, hlx, _⟩ := hinv2.buf_ok x hx
    have hxm : x ∈ st2.blocks.map Prod.fst := mem_keys_of_lookupB hlx
    rw [hst2blocks, setB_map_fst, hst1blocks, hinv.core.keys_eq] at hxm
    exact hxm
  have hb2len : st2.buffer.length ≤ keys0.length := nodup_subset_length hinv2.buf_nd hb2sub
  have hblen : 0 < st.buffer.length := List.length_pos_of_mem hcmem
  by_cases hair : b.bid = BlockId.air
  · have hr : updateBlock st0 b = (b, st0, none) := updateBlock_air st0 b hair
    have hst1e : st1 = st0 := by rw [hst1def, hr]
    have hbb : b' = b := by rw [hbdef, hr]
    have hsetb : setB st1.blocks c b' = st1.blocks := by
      rw [hbb]
      exact setB_self hnd1 hk1
    have hUeq : unmarkedCount t st2.blocks = unmarkedCount t st.blocks := by
      rw [hst2blocks, hsetb, hst1blocks]
    have hbuflen : st2.buffer.length = st.buffer.length - 1 := by
      rw [hst2buffer, hst1e]
      exact List.length_erase_of_mem hcmem
    simp only [loopMeasure, Bool.cond_true]
    rw [hUeq, hbuflen]
    generalize (keys0.length + 2) * unmarkedCount t st.blocks = P
    omega
  · have hbun : b.last_updated ≠ t := by
      obtain ⟨b2, hl2, hb2⟩ := hinv.buf_ok c hcmem
      rw [hk] at hl2
      injection hl2 with h2
      exact h2 ▸ hb2
    have hmark : b'.last_updated = t := by
      rw [hbdef, updateBlock_mark st0 b hair hok]
      exact hinv.core.tick_eq
    have hU : unmarkedCount t (setB st1.blocks c b') + 1 = unmarkedCount t st1.blocks :=
      unmarkedCount_setB hnd1 hk1 hbun hmark
    have hU' : unmarkedCount t st2.blocks + 1 = unmarkedCount t st.blocks := by
      rw [hst2blocks]
      calc unmarkedCount t (setB st1.blocks c b') + 1 = unmarkedCount t st1.blocks := hU
        _ = unmarkedCount t st.blocks := by rw [hst1blocks]
    simp only [loopMeasure, Bool.cond_true]
    rw [← hU']
    have hexp : (keys0.length + 2) * (unmarkedCount t st2.blocks + 1)
        = (keys0.length + 2) * unmarkedCount t st2.blocks + (keys0.length + 2) := by ring
    rw [hexp]
    have hb2len' : st1.buffer.length ≤ keys0.length := hb2len
    generalize (keys0.length + 2) * unmarkedCount t st2.blocks = P
    omega

theorem tickLoop_post (oracle : Nat → Nat) (t : Int) (keys0 : List Coords) :
    ∀ (fuel n : Nat) (phase : Bool) (rest : List Coords) (st : EState) (tr : List Coords),
    LoopInv t keys0 phase rest st tr →
    ∀ (st' : EState) (tr' : List Coords),
    tickLoop oracle fuel n phase rest st tr = some (TickRes.done st' tr') →
    (∀ p ∈ st'.blocks, p.2.bid ≠ BlockId.air → p.2.last_updated = t) ∧
    (∀ c : Coords, tr'.count c ≤ 1) := by
  intro fuel
  induction fuel with
  | zero =>
    intro n phase rest st tr _ st' tr' hrun
    rw [tickLoop_zero] at hrun
    exact absurd hrun (by simp)
  | succ fuel ih =>
    intro n phase rest st tr hinv st' tr' hrun
    cases phase with
    | false =>
      have hsinv : ScanInv t keys0 rest st tr := hinv
      cases rest with
      | nil =>
        rw [tickLoop_scan_nil] at hrun
        injection hrun with h1
        injection h1 with h2 h3
        subst h3
        have hpost := done_post hsinv
        subst h2
        exact ⟨fun p hp hair => hpost.1 p hp hair, hpost.2⟩
      | cons k rest' =>
        obtain ⟨b, hkb⟩ : ∃ b, lookupB st.blocks k = some b := by
          apply lookupB_some_of_mem_keys
          rw [hsinv.core.keys_eq]
          exact hsinv.core.rest_sub (List.mem_cons_self _ _)
        by_cases hmk : b.last_updated = st.tick
        · rw [tickLoop_scan_cons_skip oracle fuel n k rest' st tr b hkb hmk] at hrun
          have hmk' : b.last_updated = t := by
            rw [hmk]
            exact hsinv.core.tick_eq
          exact ih n false rest' st tr (scan_skip_preserve hsinv hkb hmk') st' tr' hrun
        · rw [tickLoop_scan_cons_seed oracle fuel n k rest' st tr b hkb hmk] at hrun
          have hmk' : b.last_updated ≠ t := by
            rw [← hsinv.core.tick_eq]
            exact hmk
          exact ih n true rest' _ tr (scan_seed_preserve hsinv hkb hmk') st' tr' hrun
    | true =>
      have hdinv : DrainInv t keys0 rest st tr := hinv
      by_cases hb : st.buffer = []
      · rw [tickLoop_drain_nil oracle fuel n rest st tr hb] at hrun
        exact ih n false rest st tr (drain_empty_preserve hdinv hb) st' tr' hrun
      · set c : Coords := st.buffer.getD (oracle n % st.buffer.length) (0, 0, 0) with hc
        have hcmem : c ∈ st.buffer := getD_mem hb (oracle n)
        obtain ⟨b0, hl0⟩ : ∃ b0, lookupB st.blocks c = some b0 := by
          obtain ⟨b0, hl0, _⟩ := hdinv.buf_ok c hcmem
          exact ⟨b0, hl0⟩
        cases herr : (updateBlock { st with buffer := st.buffer.erase c } b0).2.2 with
        | some e =>
          rw [tickLoop_drain_pop_raised oracle fuel n rest st tr c b0 e hb hc.symm hl0 herr] at hrun
          exact absurd hrun (by simp)
        | none =>
          rw [tickLoop_drain_pop_ok oracle fuel n rest st tr c b0 hb hc.symm hl0 herr] at hrun
          obtain ⟨hctr, hinv2⟩ := drain_pop_preserve hdinv hcmem hl0 herr
          exact ih (n + 1) true rest _ (tr ++ [c]) hinv2 st' tr' hrun

theorem tickLoop_total (oracle : Nat → Nat) (t : Int) (keys0 : List Coords) :
    ∀ (fuel n : Nat) (phase : Bool) (rest : List Coords) (st : EState) (tr : List Coords),
    LoopInv t keys0 phase rest st tr →
    loopMeasure keys0.length t phase rest st < fuel →
    tickLoop oracle fuel n phase rest st tr ≠ none := by
  intro fuel
  induction fuel with
  | zero =>
    intro n phase rest st tr _ hm
    exact absurd hm (Nat.not_lt_zero _)
  | succ fuel ih =>
    intro n phase rest st tr hinv hm
    cases phase with
    | false =>
      have hsinv : ScanInv t keys0 rest st tr := hinv
      cases rest with
      | nil =>
        rw [tickLoop_scan_nil]
        simp
      | cons k rest' =>
        obtain ⟨b, hkb⟩ : ∃ b, lookupB st.blocks k = some b := by
          apply lookupB_some_of_mem_keys
          rw [hsinv.core.keys_eq]
          exact hsinv.core.rest_sub (List.mem_cons_self _ _)
        by_cases hmk : b.last_updated = st.tick
        · rw [tickLoop_scan_cons_skip oracle fuel n k rest' st tr b hkb hmk]
          have hmk' : b.last_updated = t := by
            rw [hmk]
            exact hsinv.core.tick_eq
          apply ih n false rest' st tr (scan_skip_preserve hsinv hkb hmk')
          have := measure_scan_skip keys0.length t k rest' st
          omega
        · rw [tickLoop_scan_cons_seed oracle fuel n k rest' st tr b hkb hmk]
          have hmk' : b.last_updated ≠ t := by
            rw [← hsinv.core.tick_eq]
            exact hmk
          apply ih n true rest' _ tr (scan_seed_preserve hsinv hkb hmk')
          have := measure_scan_seed keys0.length t k rest' st
          omega
    | true =>
      have hdinv : DrainInv t keys0 rest st tr := hinv
      by_cases hb : st.buffer = []
      · rw [tickLoop_drain_nil oracle fuel n rest st tr hb]
        apply ih n false rest st tr (drain_empty_preserve hdinv hb)
        have := measure_drain_nil keys0.length t rest st
        omega
      · set c : Coords := st.buffer.getD (oracle n % st.buffer.length) (0, 0, 0) with hc
        have hcmem : c ∈ st.buffer := getD_mem hb (oracle n)
        obtain ⟨b0, hl0⟩ : ∃ b0, lookupB st.blocks c = some b0 := by
          obtain ⟨b0, hl0, _⟩ := hdinv.buf_ok c hcmem
          exact ⟨b0, hl0⟩
        cases herr : (updateBlock { st with buffer := st.buffer.erase c } b0).2.2 with
        | some e =>
          rw [tickLoop_drain_pop_raised oracle fuel n rest st tr c b0 e hb hc.symm hl0 herr]
          simp
        | none =>
          rw [tickLoop_drain_pop_ok oracle fuel n rest st tr c b0 hb hc.symm hl0 herr]
          obtain ⟨hctr, hinv2⟩ := drain_pop_preserve hdinv hcmem hl0 herr
          apply ih (n + 1) true rest _ (tr ++ [c]) hinv2
          have := drain_pop_measure hdinv hcmem hl0 herr hinv2
          omega

theorem initial_scan_inv (st : EState)
    (hcoh : ∀ p ∈ st.blocks, p.2.coords = p.1)
    (hnd : (st.blocks.map Prod.fst).Nodup)
    (hlu : ∀ p ∈ st.blocks, p.2.last_updated ≤ st.tick) :
    ScanInv st.tick (st.blocks.map Prod.fst) (st.blocks.map Prod.fst) st [] := by
  refine ⟨⟨rfl, rfl, hnd, hcoh, hlu, fun x hx => hx, hnd, fun c => by simp⟩, ?_, ?_⟩
  · exact fun k hk => Or.inr hk
  · intro c hc
    simp at hc

/-- C1 (amended): for every world whose stored blocks carry their own key
as coordinates and have `last_updated` at most the current tick (as every
world built through the engine API does), every execution of `tick_ahead`
that returns normally leaves every non-Air block with `last_updated`
equal to the tick that ran, and invokes no block's update more than once;
an Air block stored in the map is scanned once and keeps its old
`last_updated`, since its update is a no-op. -/
theorem tickAhead_marks_nonair (oracle : Nat → Nat) (fuel : Nat) (st : EState)
    (st' : EState) (tr : List Coords)
    (hcoh : ∀ p ∈ st.blocks, p.2.coords = p.1)
    (hnd : (st.blocks.map Prod.fst).Nodup)
    (hlu : ∀ p ∈ st.blocks, p.2.last_updated ≤ st.tick)
    (hrun : tickAhead oracle fuel st = some (TickRes.done st' tr)) :
    (∀ p ∈ st'.blocks, p.2.bid ≠ BlockId.air → p.2.last_updated = st.tick) ∧
    (∀ c : Coords, tr.count c ≤ 1) := by
  have hinv : ScanInv st.tick (st.blocks.map Prod.fst) (st.blocks.map Prod.fst) st [] :=
    initial_scan_inv st hcoh hnd hlu
  exact tickLoop_post oracle st.tick (st.blocks.map Prod.fst) fuel 0 false
    (st.blocks.map Prod.fst) st [] hinv st' tr hrun

/-- C1 witness: running one tick on the world `w1` holding one Power
block marks it with tick 1 and invokes it exactly once. -/
theorem tickAhead_marks_nonair_witness :
    (∀ p ∈ w1'.blocks, p.2.bid ≠ BlockId.air → p.2.last_updated = w1.tick) ∧
    (∀ c : Coords, List.count c [((0 : Int), (0 : Int), (0 : Int))] ≤ 1) :=
  tickAhead_marks_nonair (fun _ => 0) 10 w1 w1' [(0, 0, 0)]
    (by decide) (by decide) (by decide) (by decide)

/-- C1 counterexample: the world `wAir` stores an Air block; `tick_ahead`
returns normally, yet that block — present in the map — still carries
`last_updated = 0`, not the tick number 1 that ran, refuting the claim
over all blocks present in the map. -/
theorem tickAhead_air_stale :
    tickAhead (fun _ => 0) 10 wAir = some (TickRes.done wAir' [((0 : Int), 0, 0)]) ∧
    lookupB wAir'.blocks (0, 0, 0) = some airB ∧
    airB.last_updated ≠ wAir.tick := by
  refine ⟨by decide, by decide, by decide⟩

/-- C9 (amended): `tick_ahead` terminates on every world of built-in
blocks (with coherent keys and `last_updated` at most the tick): the
stacked `filter` objects share one underlying iterator, so the outer scan
consumes each stored block at most once, and a block whose update returns
without setting `last_updated` — such as a stored Air block — is simply
passed over, not re-selected; the stated fuel provably suffices. -/
theorem tickAhead_total (oracle : Nat → Nat) (st : EState)
    (hcoh : ∀ p ∈ st.blocks, p.2.coords = p.1)
    (hnd : (st.blocks.map Prod.fst).Nodup)
    (hlu : ∀ p ∈ st.blocks, p.2.last_updated ≤ st.tick) :
    tickAhead oracle (fuelBound st) st ≠ none := by
  have hinv : ScanInv st.tick (st.blocks.map Prod.fst) (st.blocks.map Prod.fst) st [] :=
    initial_scan_inv st hcoh hnd hlu
  apply tickLoop_total oracle st.tick (st.blocks.map Prod.fst) (fuelBound st) 0 false
    (st.blocks.map Prod.fst) st [] hinv
  have hU : unmarkedCount st.tick st.blocks ≤ st.blocks.length := List.countP_le_length _
  have hlen : (st.blocks.map Prod.fst).length = st.blocks.length := List.length_map _ _
  have hmul : ((st.blocks.map Prod.fst).length + 2) * unmarkedCount st.tick st.blocks ≤
      (st.blocks.length + 2) * st.blocks.length := by
    rw [hlen]
    exact Nat.mul_le_mul_left _ hU
  simp only [loopMeasure, Bool.cond_false, fuelBound]
  omega

/-- C9 witness: the bound suffices on the world `w9w` holding one Power
block. -/
theorem tickAhead_total_witness :
    tickAhead (fun _ => 0) (fuelBound w9w) w9w ≠ none :=
  tickAhead_total (fun _ => 0) w9w (by decide) (by decide) (by decide)

/-- C9 counterexample: the Air block `a9` is stored in `w9` and its
update returns without setting `last_updated`, yet `tick_ahead`
terminates after selecting it exactly once — it is not re-selected by the
outer scan forever, so termination does not depend on every update
setting `last_updated`. -/
theorem tickAhead_terminates_concrete :
    updateBlock w9 a9 = (a9, w9, none) ∧
    tickAhead (fun _ => 0) 10 w9 = some (TickRes.done w9' [((5 : Int), 0, 0)]) := by
  refine ⟨by decide, by decide⟩

end PowerEngine
